import Mathlib

/-!
# Verification of the pokersp Texas Hold'em engine (src/game.py)

Shallow embedding of the engine in Lean 4.  Python `int` is modelled by `Int`;
Python lists by `List`; the randomly shuffled deck is passed explicitly as the
list of cards in shuffle order.  Places where the Python source would raise an
exception on inputs that cannot occur in the claims under study (indexing an
empty list, out-of-range indices) are modelled with a default element; each such
spot is marked with a comment.  Apostrophes occurring inside Italian message
strings of the source are elided; no claim depends on message text.
-/

namespace Pokersp

/-! ## Cards (src/game.py, `Card`, `RANKS`, `SUITS`)

A card's rank is embedded directly as its numeric `value` (2..14, ace = 14),
which is what every computation in the source uses; `suit` is the index into
the string `SUITS = "SHDC"` (0 = S, 1 = H, 2 = D, 3 = C). -/

structure Card where
  value : Int
  suit : Nat
deriving DecidableEq, Repr

/-- Placeholder used where the Python source would raise (e.g. drawing from an
empty deck); unreachable in every state considered by the claims. -/
def defaultCard : Card := ⟨0, 0⟩

/-- Rank string as produced by `Card.__repr__` (value 10 renders as "10"). -/
def rankStr (v : Int) : String :=
  if v = 10 then "10"
  else if v = 11 then "J"
  else if v = 12 then "Q"
  else if v = 13 then "K"
  else if v = 14 then "A"
  else toString v

/-- Suit symbol, the character of `SUITS = "SHDC"` at the given index. -/
def suitStr (s : Nat) : String :=
  if s = 0 then "S" else if s = 1 then "H" else if s = 2 then "D" else "C"

/-- `Card.__repr__`. -/
def cardRepr (c : Card) : String := rankStr c.value ++ suitStr c.suit

/-- `Card.to_dict` (rank string, suit symbol, repr string). -/
structure CardDict where
  rank : String
  suit : String
  str : String
deriving DecidableEq, Repr

def Card.to_dict (c : Card) : CardDict :=
  { rank := rankStr c.value, suit := suitStr c.suit, str := cardRepr c }

/-- The 52 cards in the order `Deck.__init__` builds them before shuffling
(`[Card(r, s) for r in RANKS for s in SUITS]`); used as one concrete possible
shuffle outcome. -/
def stdDeck : List Card :=
  (List.range 13).flatMap (fun r => (List.range 4).map (fun s => ⟨(r : Int) + 2, s⟩))

/-! ## Deck.draw (src/game.py lines 47-50)

`draw(n)` slices off the first `n` cards: `drawn = cards[:n]; cards = cards[n:]`.
We model the deck as its list of cards and return `(drawn, remaining)`. -/

namespace Deck

def draw (cards : List Card) (n : Nat) : List Card × List Card :=
  (cards.take n, cards.drop n)

end Deck

/-! ## Hand evaluation (src/game.py lines 74-152)

Scores are Python tuples `(category, kickers)` compared lexicographically;
we embed them as `Int × List Int` with the Python tuple ordering. -/

abbrev Score := Int × List Int

/-- Python `>` on int tuples (element-wise, a longer tuple with equal prefix is
greater). -/
def lexGtI : List Int → List Int → Bool
  | [], _ => false
  | _ :: _, [] => true
  | x :: xs, y :: ys => if x > y then true else if x < y then false else lexGtI xs ys

/-- Python `>` on scores `(category, kickers)`. -/
def scoreGt (a b : Score) : Bool :=
  if a.1 > b.1 then true else if a.1 < b.1 then false else lexGtI a.2 b.2

/-- Insertion of an element into a descending-sorted list of ints. -/
def insertDescI (x : Int) : List Int → List Int
  | [] => [x]
  | y :: ys => if x ≥ y then x :: y :: ys else y :: insertDescI x ys

/-- `sorted(l, reverse=True)` on ints. -/
def sortDescI : List Int → List Int
  | [] => []
  | x :: xs => insertDescI x (sortDescI xs)

/-- The scanning loop of `is_straight`: slide a window of 5 over the
descending-sorted distinct values, returning the head of the first window of
five consecutive values. -/
def straightScan : List Int → Option Int
  | v0 :: v1 :: v2 :: v3 :: v4 :: rest =>
      if v0 - v1 = 1 ∧ v1 - v2 = 1 ∧ v2 - v3 = 1 ∧ v3 - v4 = 1 then some v0
      else straightScan (v1 :: v2 :: v3 :: v4 :: rest)
  | _ => none

/-- `is_straight(values)` (lines 74-83): sort the distinct values descending,
append a low ace when an ace is present, return the high card of the first
run of five consecutive values. -/
def is_straight (values : List Int) : Option Int :=
  let vals := sortDescI values.dedup
  let vals := if 14 ∈ vals then vals ++ [1] else vals
  straightScan vals

/-- Ordering used for `by_count_then_value`: sort key `(-count, -value)` on
`(value, count)` pairs, i.e. count descending then value descending.  Keys are
distinct (one pair per distinct value), so Python's stable sort is fully
determined by this comparison. -/
def pairBefore (a b : Int × Int) : Bool :=
  a.2 > b.2 || (a.2 == b.2 && a.1 ≥ b.1)

def insertPair (x : Int × Int) : List (Int × Int) → List (Int × Int)
  | [] => [x]
  | y :: ys => if pairBefore x y then x :: y :: ys else y :: insertPair x ys

def sortPairs : List (Int × Int) → List (Int × Int)
  | [] => []
  | x :: xs => insertPair x (sortPairs xs)

/-- `by_count_then_value` of `evaluate_5cards` (lines 88-92): `(value, count)`
pairs for the distinct values, sorted by count descending then value
descending. -/
def by_count_then_value (values : List Int) : List (Int × Int) :=
  sortPairs (values.dedup.map (fun v => (v, (values.count v : Int))))

/-- Straight-flush check of `evaluate_5cards` (lines 94-102): group values by
suit (suits in first-occurrence order, as Python dict iteration yields), and
for the first suit holding at least five cards whose values contain a straight,
return its high card. -/
def straightFlushCheck (cards : List Card) : Option Int :=
  (cards.map (·.suit)).dedup.findSome? (fun s =>
    let vals := (cards.filter (·.suit == s)).map (·.value)
    if vals.length ≥ 5 then is_straight vals else none)

/-- Flush check of `evaluate_5cards` (lines 114-118): iterate the four suits in
`SUITS` order, returning the top five suited values for the first suit with at
least five cards. -/
def flushCheck (cards : List Card) : Option Score :=
  (List.range 4).findSome? (fun s =>
    let suited := sortDescI ((cards.filter (·.suit == s)).map (·.value))
    if suited.length ≥ 5 then some ((5 : Int), suited.take 5) else none)

/-- `evaluate_5cards(cards)` (lines 85-144).  `max(...)` over the non-empty
generator expressions of the source is the head of the corresponding
descending-sorted filtered list; on the empty list (where Python would raise)
it is modelled by 0, which no 5-card input reaches. -/
def evaluate_5cards (cards : List Card) : Score :=
  let values := sortDescI (cards.map (·.value))
  let bct := by_count_then_value values
  let top := bct.headD (0, 0)
  let snd := bct.getD 1 (0, 0)
  match straightFlushCheck cards with
  | some fh => ((8 : Int), [fh])
  | none =>
    if top.2 == 4 then
      let four := top.1
      let kicker := (values.filter (· ≠ four)).headD 0
      ((7 : Int), [four, kicker])
    else if top.2 == 3 && decide (1 < bct.length) && snd.2 ≥ 2 then
      ((6 : Int), [top.1, snd.1])
    else
      match flushCheck cards with
      | some sc => sc
      | none =>
        match is_straight values with
        | some hi => ((4 : Int), [hi])
        | none =>
          if top.2 == 3 then
            ((3 : Int), top.1 :: (values.filter (· ≠ top.1)).take 2)
          else if top.2 == 2 && decide (1 < bct.length) && snd.2 == 2 then
            let hp := top.1
            let lp := snd.1
            let kicker := (values.filter (fun v => v ≠ hp ∧ v ≠ lp)).headD 0
            ((2 : Int), [hp, lp, kicker])
          else if top.2 == 2 then
            ((1 : Int), top.1 :: (values.filter (· ≠ top.1)).take 3)
          else
            ((0 : Int), values.take 5)

/-- `best_from_seven(seven)` (lines 146-152): maximum of `evaluate_5cards` over
all 5-card subsequences, starting from the sentinel `(-1, ())`.  The source
iterates `itertools.combinations(seven, 5)`; `List.sublistsLen 5` yields exactly
the same 5-element subsequences (possibly in another order, which cannot change
the maximum of a total lexicographic order). -/
def best_from_seven (seven : List Card) : Score :=
  (List.sublistsLen 5 seven).foldl
    (fun best combo =>
      let score := evaluate_5cards combo
      if scoreGt score best then score else best)
    ((-1 : Int), [])

/-- `HAND_RANKS` (lines 11-14). -/
def HAND_RANKS : List String :=
  ["High Card", "One Pair", "Two Pair", "Three of a Kind", "Straight",
   "Flush", "Full House", "Four of a Kind", "Straight Flush"]

/-- `HAND_RANKS[i]` with Python semantics for the negative index -1 (which the
source hits when settling with an empty board); other indices are 0..8. -/
def handRankName (i : Int) : String :=
  if 0 ≤ i then HAND_RANKS.getD i.toNat "?"
  else HAND_RANKS.getD (HAND_RANKS.length - (-i).toNat) "?"

/-! ## Player (src/game.py lines 52-71) -/

structure Player where
  id : String
  name : String
  chips : Int
  hole : List Card
  in_hand : Bool
  current_bet : Int
  all_in : Bool
deriving DecidableEq, Repr

/-- Placeholder for list indexing that would raise in Python; unreachable in
the states the claims quantify over. -/
def dummyPlayer : Player := ⟨"", "", 0, [], false, 0, false⟩

/-- The per-player entry of `public_state` (`Player.to_public`). -/
structure PublicPlayer where
  id : String
  name : String
  chips : Int
  in_hand : Bool
  current_bet : Int
  all_in : Bool
  hole : List String
deriving DecidableEq, Repr

def dummyPublicPlayer : PublicPlayer := ⟨"", "", 0, false, 0, false, []⟩

/-- `Player.to_public(reveal)` (lines 62-71): hole cards are rendered by
`repr` when revealed, else `len(hole) * ["XX"]`. -/
def Player.to_public (p : Player) (reveal : Bool) : PublicPlayer :=
  { id := p.id, name := p.name, chips := p.chips, in_hand := p.in_hand,
    current_bet := p.current_bet, all_in := p.all_in,
    hole := if reveal then p.hole.map cardRepr
            else List.replicate p.hole.length "XX" }

/-! ## Game state (src/game.py lines 155-170) -/

structure Game where
  players : List Player
  max_players : Int
  sb : Int
  bb : Int
  /-- `self.deck.cards`; `[]` stands for the initial `None` (never drawn from
  before `start_hand` installs a real deck). -/
  deck : List Card
  community : List Card
  pot : Int
  dealer_idx : Nat
  current_bet : Int
  turn_idx : Nat
  started : Bool
  stage : String
  last_raiser_idx : Int
  last_raise_amount : Int
deriving DecidableEq, Repr

/-- In-place mutation of the player object at a list position, as Python's
aliasing of `Player` objects inside `self.players` does. -/
def modifyIdx : List Player → Nat → (Player → Player) → List Player
  | [], _, _ => []
  | p :: ps, 0, f => f p :: ps
  | p :: ps, Nat.succ i, f => p :: modifyIdx ps i f

/-- `Game.find_player` (lines 179-183): first player with the given id. -/
def Game.find_player (g : Game) (pid : String) : Option Player :=
  g.players.find? (fun p => p.id == pid)

/-- Index of the player object `find_player` returns (its position in
`self.players`); mutations of that object show up at this index. -/
def Game.pIdx (g : Game) (pid : String) : Nat :=
  g.players.findIdx (fun p => p.id == pid)

/-- `Game.flush_current_bets_to_pot` (lines 186-195). -/
def Game.flush_current_bets_to_pot (g : Game) : Game :=
  let bets := (g.players.map (·.current_bet)).sum
  if bets > 0 then
    { g with pot := g.pot + bets,
             players := g.players.map (fun p => { p with current_bet := 0 }) }
  else g

/-- `Game.all_but_one_folded` (lines 366-368). -/
def Game.all_but_one_folded (g : Game) : Bool :=
  (g.players.filter (·.in_hand)).length ≤ 1

/-- `Game.next_active_idx(start)` (lines 330-350): the first index after
`start` (cyclically, scanning `start+1 .. start+n`) of a player who is in the
hand, not all-in, and below the current bet; `none` when no one must act (both
trailing branches of the source return `None`). -/
def Game.next_active_idx (g : Game) (start : Nat) : Option Nat :=
  let n := g.players.length
  (List.range n).findSome? (fun j =>
    let idx := (start + j + 1) % n
    let p := g.players.getD idx dummyPlayer
    if p.in_hand && !p.all_in && decide (p.current_bet < g.current_bet)
    then some idx else none)

/-- `Game.is_betting_round_over` (lines 352-364). -/
def Game.is_betting_round_over (g : Game) : Bool :=
  if g.all_but_one_folded then true
  else g.players.all (fun p =>
    !(p.in_hand && !p.all_in && decide (p.current_bet < g.current_bet)))

/-- Dealing `n` community cards (`self.community.extend(self.deck.draw(n))`). -/
def dealN (g : Game) (n : Nat) : Game :=
  { g with community := g.community ++ g.deck.take n, deck := g.deck.drop n }

/-- The `while self.stage != "showdown"` run-out loop of `advance_stage`
(lines 296-309), which deals the remaining streets when nobody can act.  The
loop body only fires for the four in-hand stages, so it terminates after at
most these unfolded steps (for any other stage value the Python loop would
never terminate, which is unreachable: `advance_stage` has already set one of
the four stages). -/
def Game.runout (g : Game) : Game :=
  let g1 := if g.stage == "preflop" then { dealN g 3 with stage := "flop" } else g
  let g2 := if g1.stage == "flop" then { dealN g1 1 with stage := "turn" } else g1
  let g3 := if g2.stage == "turn" then { dealN g2 1 with stage := "river" } else g2
  if g3.stage == "river" then { g3 with stage := "showdown" } else g3

/-- Common tail of `advance_stage` after community cards are dealt
(lines 287-311): reset the round bookkeeping and either hand the turn to the
first player after the dealer who must act, or run out the board to showdown. -/
def Game.afterDeal (g : Game) : Game :=
  let g := { g with current_bet := 0, last_raiser_idx := -1,
                    last_raise_amount := g.bb }
  match g.next_active_idx g.dealer_idx with
  | none => g.runout
  | some nxt => { g with turn_idx := nxt }

/-- `Game.advance_stage` (lines 257-311). -/
def Game.advance_stage (g : Game) : Game :=
  let g := g.flush_current_bets_to_pot
  if g.stage == "preflop" then Game.afterDeal { dealN g 3 with stage := "flop" }
  else if g.stage == "flop" then Game.afterDeal { dealN g 1 with stage := "turn" }
  else if g.stage == "turn" then Game.afterDeal { dealN g 1 with stage := "river" }
  else if g.stage == "river" then Game.afterDeal { g with stage := "showdown" }
  else
    { g with started := false, stage := "waiting",
             dealer_idx := if g.players.length ≠ 0
                           then (g.dealer_idx + 1) % g.players.length else 0 }

/-- One dealing pass of `start_hand` (lines 226-228): each player in seat
order appends one card drawn from the front of the deck. -/
def dealRound : List Player → List Card → List Player × List Card
  | [], deck => ([], deck)
  | p :: ps, deck =>
    let c := deck.headD defaultCard
    let (ps1, deck1) := dealRound ps (deck.drop 1)
    ({ p with hole := p.hole ++ [c] } :: ps1, deck1)

/-- `Game.start_hand` (lines 197-255).  `shuffled` is the card order produced
by `random.shuffle` in `Deck.__init__`. -/
def Game.start_hand (g : Game) (shuffled : List Card) : Game × Bool × String :=
  if g.players.length < 2 then (g, false, "Serve almeno 2 giocatori")
  else
    let active := g.players.filter (fun p => p.chips > 0)
    if active.length < 2 then
      (g, false, "Non ci sono abbastanza giocatori con fiches.")
    else
      let players := active.map (fun p =>
        { p with hole := [], in_hand := true, current_bet := 0, all_in := false })
      let g := { g with players := players, deck := shuffled, community := [],
                        pot := 0, current_bet := 0, started := true,
                        stage := "preflop", last_raiser_idx := -1,
                        last_raise_amount := g.bb }
      let pd1 := dealRound g.players g.deck
      let pd2 := dealRound pd1.1 pd1.2
      let ps2 := pd2.1
      let d2 := pd2.2
      let n := ps2.length
      let dealer := g.dealer_idx % n
      let sb_idx := (dealer + 1) % n
      let bb_idx := (dealer + 2) % n
      let sb_amt := min g.sb ((ps2.getD sb_idx dummyPlayer).chips)
      let bb_amt := min g.bb ((ps2.getD bb_idx dummyPlayer).chips)
      let ps3 := modifyIdx ps2 sb_idx (fun p =>
        { p with chips := p.chips - sb_amt, current_bet := sb_amt,
                 all_in := decide (p.chips - sb_amt = 0) })
      let ps4 := modifyIdx ps3 bb_idx (fun p =>
        { p with chips := p.chips - bb_amt, current_bet := bb_amt,
                 all_in := decide (p.chips - bb_amt = 0) })
      ({ g with players := ps4, deck := d2, dealer_idx := dealer,
                pot := g.pot + sb_amt + bb_amt, current_bet := bb_amt,
                turn_idx := (bb_idx + 1) % n,
                last_raiser_idx := (bb_idx : Int) },
       true, "Mano iniziata")

/-- `Game.public_state(player_id)` (lines 313-328). -/
structure PublicState where
  players : List PublicPlayer
  community : List CardDict
  pot : Int
  stage : String
  dealer_idx : Nat
  current_bet : Int
  turn_id : Option String
  hand_started : Bool
deriving DecidableEq, Repr

def Game.public_state (g : Game) (player_id : String) : PublicState :=
  { players := g.players.map (fun p =>
      p.to_public ((p.id == player_id) || (g.stage == "showdown"))),
    community := g.community.map Card.to_dict,
    pot := g.pot,
    stage := g.stage,
    dealer_idx := g.dealer_idx,
    current_bet := g.current_bet,
    turn_id := if g.players ≠ [] ∧ g.started
               then some ((g.players.getD g.turn_idx dummyPlayer).id) else none,
    hand_started := g.started }

/-- One settlement line of `collect_pots_and_award`. -/
structure AwardResult where
  winner_name : String
  amount : Int
  hand : String
deriving DecidableEq, Repr

/-- The winner-selection fold of `collect_pots_and_award` (lines 393-407):
running best score and the list of `(player index, hand name)` currently tied
at it. -/
def winnerStep (acc : Option Score × List (Nat × String)) (is : Nat × Score) :
    Option Score × List (Nat × String) :=
  let ht := handRankName is.2.1
  match acc.1 with
  | none => (some is.2, [(is.1, ht)])
  | some best =>
    if scoreGt is.2 best then (some is.2, [(is.1, ht)])
    else if is.2 == best then (acc.1, acc.2 ++ [(is.1, ht)])
    else acc

/-- Indices of the players still in the hand (`inplay` of
`collect_pots_and_award`, line 377). -/
def Game.inplayIdx (g : Game) : List Nat :=
  (List.range g.players.length).filter
    (fun i => (g.players.getD i dummyPlayer).in_hand)

/-- The seven-card score of the player at index `i` (`best_from_seven(p.hole +
self.community)`, lines 397-398). -/
def Game.bestOf (g : Game) (i : Nat) : Score :=
  best_from_seven ((g.players.getD i dummyPlayer).hole ++ g.community)

/-- The `(index, score)` pairs settlement evaluates. -/
def Game.scoredIdx (g : Game) : List (Nat × Score) :=
  g.inplayIdx.map (fun i => (i, g.bestOf i))

/-- The winner list the showdown branch of `collect_pots_and_award` builds:
all in-hand players tied at the maximal score, in seat order, paired with the
name of their hand category. -/
def Game.showdownWinners (g : Game) : List (Nat × String) :=
  (g.scoredIdx.foldl winnerStep (none, [])).2

/-- `Game.collect_pots_and_award` (lines 372-429).  Python `//` and `%` are
floor division and modulus, i.e. `Int.fdiv` / `Int.fmod`. -/
def Game.collect_pots_and_award (g : Game) : Game × List AwardResult :=
  let inplay := g.inplayIdx
  if inplay.length == 1 then
    let wi := inplay.headD 0
    let winner := g.players.getD wi dummyPlayer
    let players := modifyIdx g.players wi (fun p => { p with chips := p.chips + g.pot })
    ({ g with players := players, pot := 0, started := false, stage := "waiting",
              dealer_idx := if players.length ≠ 0
                            then (g.dealer_idx + 1) % players.length else 0 },
     [⟨winner.name, g.pot, "Unico Rimasto"⟩])
  else
    let winners := g.showdownWinners
    if winners.length == 0 then
      ({ g with pot := 0 }, [])
    else
      let split := g.pot.fdiv (winners.length : Int)
      let remaining := g.pot.fmod (winners.length : Int)
      let players := (winners.enum.foldl (fun ps wk =>
        modifyIdx ps wk.2.1 (fun p =>
          { p with chips := p.chips + split + (if wk.1 = 0 then remaining else 0) }))
        g.players)
      let results := winners.enum.map (fun wk =>
        (⟨(g.players.getD wk.2.1 dummyPlayer).name,
          split + (if wk.1 = 0 then remaining else 0), wk.2.2⟩ : AwardResult))
      ({ g with players := players, pot := 0, started := false, stage := "waiting",
                dealer_idx := if g.players.length ≠ 0
                              then (g.dealer_idx + 1) % g.players.length else 0 },
       results)

/-- Turn advance shared by the fold/check/call/raise branches of
`player_action`: hand the turn to the next player who must act, else close the
betting round via `advance_stage`. -/
def Game.advanceTurn (g : Game) : Game :=
  match g.next_active_idx g.turn_idx with
  | none => g.advance_stage
  | some nxt => { g with turn_idx := nxt }

/-- `action.lower()`: ASCII lowercasing, character by character (spelled out
on the character list so that it evaluates inside the kernel). -/
def lowerStr (s : String) : String := ⟨s.data.map Char.toLower⟩

/-- The state-update core of the raise branch of `player_action`
(lines 506-521), reached once the raise is accepted: the actor at index `pi`
(the object `find_player` returned, i.e. `p`) puts in
`to_put = to_call + amount` chips capped at the whole stack (all-in when
capped), and the table's current bet and raise bookkeeping update when the
actor's new wager exceeds the old bet. -/
def Game.raiseApply (g : Game) (pi : Nat) (amount : Int) (p : Player) : Game :=
  let to_call := g.current_bet - p.current_bet
  let to_put0 := to_call + amount
  let capped := decide (to_put0 ≥ p.chips)
  let to_put := if capped then p.chips else to_put0
  let g1 := { g with players := modifyIdx g.players pi (fun q =>
    { q with chips := q.chips - to_put, current_bet := q.current_bet + to_put,
             all_in := q.all_in || capped }) }
  let pAfter := g1.players.getD pi dummyPlayer
  if pAfter.current_bet > g1.current_bet then
    { g1 with current_bet := pAfter.current_bet,
              last_raiser_idx := (g.turn_idx : Int),
              last_raise_amount := pAfter.current_bet - g1.current_bet }
  else g1

/-- `Game.player_action(player_id, action, amount)` (lines 431-532). -/
def Game.player_action (g : Game) (player_id : String) (action : String)
    (amount : Int) : Game × Bool × String :=
  match g.find_player player_id with
  | none => (g, false, "Player non trovato")
  | some p =>
    if !p.in_hand then (g, false, "Hai già foldato")
    else if !g.started then (g, false, "Mano non iniziata")
    else if (g.players.getD g.turn_idx dummyPlayer).id ≠ player_id then
      (g, false, "Non è il tuo turno")
    else if p.all_in then (g, false, "Sei All-in, non puoi agire")
    else
      let action := lowerStr action
      let to_call := g.current_bet - p.current_bet
      let pi := g.pIdx player_id
      if action == "fold" then
        let g1 := { g with players := (modifyIdx g.players pi
                      (fun q => { q with in_hand := false })) }
        if g1.all_but_one_folded then
          let g2 := g1.flush_current_bets_to_pot
          ((g2.collect_pots_and_award).1, true, "Hai foldato. Mano terminata.")
        else (g1.advanceTurn, true, "Fold")
      else if action == "check" then
        if to_call > 0 then (g, false, "Non puoi checkare se ce da chiamare")
        else (g.advanceTurn, true, "Check")
      else if action == "call" then
        if to_call ≤ 0 then (g, false, "Non ce nulla da chiamare, usa check.")
        else
          let put := min to_call p.chips
          let g1 := { g with players := modifyIdx g.players pi (fun q =>
            let q1 := { q with chips := q.chips - put,
                               current_bet := q.current_bet + put }
            if q1.chips == 0 then { q1 with all_in := true } else q1) }
          (g1.advanceTurn, true, "Call " ++ toString put)
      else if action == "raise" then
        if amount ≤ 0 then (g, false, "Specifica un importo di rilancio valido.")
        else
          let min_inc := if g.last_raiser_idx ≠ -1 then g.last_raise_amount else g.bb
          if amount < min_inc ∧ (to_call + amount) < p.chips then
            (g, false, "Incremento del rilancio sotto il minimo " ++ toString min_inc)
          else
            let to_put := if decide (to_call + amount ≥ p.chips) then p.chips
                          else to_call + amount
            let g2 := g.raiseApply pi amount p
            (g2.advanceTurn, true,
             "Raised a " ++ toString ((g2.players.getD pi dummyPlayer).current_bet)
               ++ " (Messo: " ++ toString to_put ++ ")")
      else (g, false, "Azione non riconosciuta")

/-! ## Derived quantities used by the claims -/

/-- The conserved quantity of the money-conservation claim:
`sum(player.stack) + pot + sum(player.currentRoundWager)`. -/
def moneySum (g : Game) : Int :=
  (g.players.map (·.chips)).sum + g.pot + (g.players.map (·.current_bet)).sum

/-- A freshly seated player, as `Player.__init__` creates one (1000 chips,
in hand, no wager); the random uuid is made explicit. -/
def basePlayer (i n : String) (c : Int) : Player := ⟨i, n, c, [], true, 0, false⟩

/-- A room as `Game.__init__` plus `add_player` calls leave it
(`max_players=4`, `sb=10`, `bb=20`, nothing dealt, stage `waiting`). -/
def baseGame (ps : List Player) : Game :=
  ⟨ps, 4, 10, 20, [], [], 0, 0, 0, 0, false, "waiting", -1, 20⟩

/-! ## The spec's layered side-pot settlement (for claim C2)

`collect_pots_and_award` in the source implements no side pots, so the layered
algorithm of the specification (§4.4) is formalised here separately, from the
spec's words, to compare with the code: distinct ascending contribution
levels, a layer of size `(level - previous) × count(contribution ≥ level)`
between consecutive levels, eligibility `contribution ≥ level ∧ inHand`, each
layer split among the eligible players of maximal score with the remainder to
the earliest of them.  Contributions are explicit inputs, since the source
tracks no per-hand contribution. -/

structure SpecEntry where
  seat : Nat
  contrib : Int
  inHand : Bool
  score : Score
deriving DecidableEq, Repr

def sortAscI (l : List Int) : List Int := (sortDescI l).reverse

/-- Awards of the single layer `(prev, lvl]`. -/
def layerAwards (entries : List SpecEntry) (prev lvl : Int) : List (Nat × Int) :=
  let size := (lvl - prev) * ((entries.filter (fun e => lvl ≤ e.contrib)).length : Int)
  let elig := entries.filter (fun e => decide (lvl ≤ e.contrib) && e.inHand)
  let best := elig.foldl (fun b e => if scoreGt e.score b then e.score else b)
    ((-1 : Int), [])
  let winners := elig.filter (fun e => e.score == best)
  let k := (winners.length : Int)
  winners.enum.map (fun we =>
    (we.2.seat, size.fdiv k + (if we.1 = 0 then size.fmod k else 0)))

def specLayersGo (entries : List SpecEntry) : Int → List Int → List (Nat × Int)
  | _, [] => []
  | prev, lvl :: rest => layerAwards entries prev lvl ++ specLayersGo entries lvl rest

/-- All per-layer awards of the spec's settlement. -/
def specSettleAwards (entries : List SpecEntry) : List (Nat × Int) :=
  let levels := sortAscI ((entries.map (·.contrib)).filter (0 < ·)).dedup
  specLayersGo entries 0 levels

/-- Total amount the spec's settlement awards to a seat. -/
def specAwardTo (entries : List SpecEntry) (seat : Nat) : Int :=
  (((specSettleAwards entries).filter (·.1 = seat)).map (·.2)).sum

/-! ## Concrete states used by counterexamples and witnesses -/

/-- A fresh two-player room, 1000 chips each. -/
def twoKRoom : Game := baseGame [basePlayer "p0" "A" 1000, basePlayer "p1" "B" 1000]

/-- A two-player room in which the big-blind poster (the dealer, seat 0, in a
heads-up hand) holds only 5 chips. -/
def shortBBRoom : Game := baseGame [basePlayer "p0" "A" 5, basePlayer "p1" "B" 1000]

/-- A fresh three-player room, 1000 chips each. -/
def threeRoom : Game :=
  baseGame [basePlayer "p0" "A" 1000, basePlayer "p1" "B" 1000,
            basePlayer "p2" "C" 1000]

/-- A preflop state reachable right after `start_hand` in a two-player room
(seat 1 posted the small blind 10 and called is yet to come; seat 0 posted the
big blind 20, here already flushed to seat 1 = big blind for exposition):
seat 0 is to act facing a current bet of 20 with wager 0. -/
def raiseState : Game :=
  { players := [⟨"p0", "A", 1000, [], true, 0, false⟩,
                ⟨"p1", "B", 980, [], true, 20, false⟩],
    max_players := 4, sb := 10, bb := 20, deck := [], community := [],
    pot := 0, dealer_idx := 0, current_bet := 20, turn_idx := 0,
    started := true, stage := "preflop", last_raiser_idx := 1,
    last_raise_amount := 20 }

/-- A showdown with unequal contributions: seat 0 went all-in for 30 (holding
a pair of aces, the best hand), seats 1 and 2 contributed 100 each; the pot
holds 230. -/
def sidePotShowdown : Game :=
  { players := [⟨"pa", "A", 0, [⟨14, 0⟩, ⟨14, 2⟩], true, 0, true⟩,
                ⟨"pb", "B", 900, [⟨13, 0⟩, ⟨12, 2⟩], true, 0, false⟩,
                ⟨"pc", "C", 900, [⟨13, 2⟩, ⟨12, 3⟩], true, 0, false⟩],
    max_players := 4, sb := 10, bb := 20, deck := [],
    community := [⟨2, 0⟩, ⟨7, 2⟩, ⟨9, 3⟩, ⟨11, 1⟩, ⟨3, 0⟩],
    pot := 230, dealer_idx := 0, current_bet := 0, turn_idx := 0,
    started := true, stage := "showdown", last_raiser_idx := -1,
    last_raise_amount := 20 }

/-- The contribution records matching `sidePotShowdown` (seat 0 contributed
30, seats 1 and 2 contributed 100). -/
def sidePotEntries : List SpecEntry :=
  [⟨0, 30, true, sidePotShowdown.bestOf 0⟩,
   ⟨1, 100, true, sidePotShowdown.bestOf 1⟩,
   ⟨2, 100, true, sidePotShowdown.bestOf 2⟩]

/-- The state left by a complete settled hand in `threeRoom`: `start_hand`,
two calls (which close the round and auto-deal to showdown), then settlement;
its pot is 0 and its stage is back to `waiting`. -/
def settledOnce : Game :=
  ((((threeRoom.start_hand stdDeck).1.player_action "p0" "call" 0).1.player_action
      "p1" "call" 0).1.collect_pots_and_award).1

/-! ## Claim C1 — money conservation -/

/-- C1: money conservation fails at `start_hand` itself.  In a fresh
two-player room with 1000 chips each (total 2000), `start_hand` succeeds and
leaves `sum(stack) + pot + sum(currentRoundWager) = 2030`: the blinds (10+20)
are added to the pot immediately AND left in the posters' `current_bet`,
which `flush_current_bets_to_pot` later adds to the pot a second time, so the
engine creates 30 chips out of thin air every hand. -/
theorem c1_start_hand_breaks_money_conservation :
    ((twoKRoom.players.map (·.chips)).sum = 2000) ∧
    (twoKRoom.start_hand stdDeck).2.1 = true ∧
    moneySum (twoKRoom.start_hand stdDeck).1 = 2030 := by decide

/-! ## Claim C6 — Deck.draw -/

/-- C6 counterexample: on a deck holding only 2 cards, `draw(3)` does not fail
with `DeckExhausted` — there is no such error anywhere in `Deck.draw` — it
silently returns just the 2 remaining cards. -/
theorem c6_draw_short_deck_counterexample :
    (Deck.draw (stdDeck.take 2) 3).1 = stdDeck.take 2 ∧
    (Deck.draw (stdDeck.take 2) 3).1.length = 2 := by decide

/-- C6 amended: `draw(n)` removes and returns the first `min(n, remaining)`
cards in shuffle order; when at least `n` cards remain this is exactly the
first `n`, and when fewer remain it returns all of them rather than failing. -/
theorem c6_draw_amended (cards : List Card) (n : Nat) :
    Deck.draw cards n = (cards.take n, cards.drop n) ∧
    (Deck.draw cards n).1.length = min n cards.length :=
  ⟨rfl, List.length_take n cards⟩

/-! ## Claim C3 — raise semantics -/

/-- C3 counterexample: `amount` is an increment, not the new total wager.  In
`raiseState` seat 0 (wager 0, current bet 20) raises with `amount = 20`; the
action is accepted and the actor's `current_bet` becomes 40 (= old bet 20 +
increment 20), not 20 as the claim predicts. -/
theorem c3_raise_amount_counterexample :
    (raiseState.player_action "p0" "raise" 20).2.1 = true ∧
    ((raiseState.player_action "p0" "raise" 20).1.players.getD 0
      dummyPlayer).current_bet = 40 ∧ ((40 : Int) ≠ 20) := by decide

/-! ## Claim C5 — current bet = max wager -/

/-- C5 counterexample: after `start_hand` in `shortBBRoom` (big blind capped
at a 5-chip stack while the small blind posts 10), the table's current bet is
5 but the small-blind poster, still in hand, has `current_bet = 10 > 5`. -/
theorem c5_short_big_blind_counterexample :
    (shortBBRoom.start_hand stdDeck).2.1 = true ∧
    (shortBBRoom.start_hand stdDeck).1.current_bet = 5 ∧
    ((shortBBRoom.start_hand stdDeck).1.players.getD 1 dummyPlayer).in_hand
      = true ∧
    ((shortBBRoom.start_hand stdDeck).1.players.getD 1 dummyPlayer).current_bet
      = 10 := by decide

/-! ## Claim C4 — round closure -/

set_option maxRecDepth 8000 in
/-- C4 counterexample: the engine closes the preflop betting round without
action ever returning to the big blind (seat 2, the round's opener by the
claim).  After `start_hand` in a three-player room, seat 0 calls and seat 1
calls; nobody else acts, yet the engine closes the round and — the table bet
being 0 after the flush — auto-deals all streets to showdown.  Seat 2, still
in hand and not all-in, never acted. -/
theorem c4_round_closes_without_opener_counterexample :
    ((threeRoom.start_hand stdDeck).1.stage = "preflop") ∧
    ((threeRoom.start_hand stdDeck).1.turn_idx = 0) ∧
    (let g1 := (threeRoom.start_hand stdDeck).1
     let g2 := (g1.player_action "p0" "call" 0).1
     let g3 := (g2.player_action "p1" "call" 0).1
     (g2.player_action "p1" "call" 0).2.1 = true ∧
     (g2.players.getD 2 dummyPlayer).in_hand = true ∧
     (g2.players.getD 2 dummyPlayer).all_in = false ∧
     g3.stage = "showdown" ∧ g3.community.length = 5) := by decide

/-! ## Claim C2 — side-pot settlement -/

set_option maxRecDepth 16000 in
/-- C2 counterexample: the code's settlement implements no pot layering.  In
`sidePotShowdown` the layered algorithm of the spec awards seat 0 (all-in for
30 with the best hand) exactly 90 = 30 × 3, and 70 each to seats 1 and 2; the
code instead awards the entire 230-chip pot to seat 0. -/
theorem c2_no_side_pots_counterexample :
    (sidePotShowdown.collect_pots_and_award).2 = [⟨"A", 230, "One Pair"⟩] ∧
    specAwardTo sidePotEntries 0 = 90 ∧
    specAwardTo sidePotEntries 1 = 70 ∧
    ((230 : Int) ≠ 90) := by decide

/-! ## Claim C8 — failed actions leave the table unchanged -/

/-- Every branch of `player_action` that returns `(False, reason)` does so
before any field of the game or of a player has been assigned. -/
theorem player_action_fail_frame (g : Game) (pid act : String) (amt : Int)
    (h : (g.player_action pid act amt).2.1 = false) :
    (g.player_action pid act amt).1 = g := by
  unfold Game.player_action at h ⊢
  cases hf : g.find_player pid with
  | none => rfl
  | some p =>
    simp only [hf] at h ⊢
    by_cases c1 : (!p.in_hand) = true
    · simp only [if_pos c1]
    · simp only [if_neg c1] at h ⊢
      by_cases c2 : (!g.started) = true
      · simp only [if_pos c2]
      · simp only [if_neg c2] at h ⊢
        by_cases c3 : (g.players.getD g.turn_idx dummyPlayer).id ≠ pid
        · simp only [if_pos c3]
        · simp only [if_neg c3] at h ⊢
          by_cases c4 : p.all_in = true
          · simp only [if_pos c4]
          · simp only [if_neg c4] at h ⊢
            by_cases c5 : (lowerStr act == "fold") = true
            · simp only [if_pos c5] at h ⊢
              split at h <;> exact Bool.noConfusion h
            · simp only [if_neg c5] at h ⊢
              by_cases c6 : (lowerStr act == "check") = true
              · simp only [if_pos c6] at h ⊢
                by_cases c6a : g.current_bet - p.current_bet > 0
                · simp only [if_pos c6a]
                · simp only [if_neg c6a] at h ⊢
                  exact Bool.noConfusion h
              · simp only [if_neg c6] at h ⊢
                by_cases c7 : (lowerStr act == "call") = true
                · simp only [if_pos c7] at h ⊢
                  by_cases c7a : g.current_bet - p.current_bet ≤ 0
                  · simp only [if_pos c7a]
                  · simp only [if_neg c7a] at h ⊢
                    exact Bool.noConfusion h
                · simp only [if_neg c7] at h ⊢
                  by_cases c8 : (lowerStr act == "raise") = true
                  · simp only [if_pos c8] at h ⊢
                    by_cases c8a : amt ≤ 0
                    · simp only [if_pos c8a]
                    · simp only [if_neg c8a] at h ⊢
                      by_cases c8b : amt < (if g.last_raiser_idx ≠ -1 then
                          g.last_raise_amount else g.bb) ∧
                          g.current_bet - p.current_bet + amt < p.chips
                      · simp only [if_pos c8b]
                      · simp only [if_neg c8b] at h ⊢
                        exact Bool.noConfusion h
                  · simp only [if_neg c8] at h ⊢

/-- C8: whenever `player_action` returns a failure result — for any state,
caller, action string and amount — the entire table state (players, pot,
stage, current bet, turn index, every flag) is exactly what it was before the
call. -/
theorem c8_failed_action_leaves_state_unchanged (g : Game) (pid act : String)
    (amt : Int) (h : (g.player_action pid act amt).2.1 = false) :
    (g.player_action pid act amt).1 = g :=
  player_action_fail_frame g pid act amt h

/-- C8 witness: in `raiseState` it is seat 0's turn, so a call by seat 1
fails and the state is bit-for-bit unchanged. -/
theorem c8_failed_action_leaves_state_unchanged_witness :
    (raiseState.player_action "p1" "call" 0).2.1 = false ∧
    (raiseState.player_action "p1" "call" 0).1 = raiseState :=
  ⟨by decide,
   c8_failed_action_leaves_state_unchanged raiseState "p1" "call" 0 (by decide)⟩

/-! ## Claim C9 — settlement idempotence -/

theorem modifyIdx_chips_self (l : List Player) (i : Nat) :
    modifyIdx l i (fun p => { p with chips := p.chips }) = l := by
  induction l generalizing i with
  | nil => rfl
  | cons p ps ih =>
    cases i with
    | zero => rfl
    | succ j => simp [modifyIdx, ih]

theorem foldl_modify_chips_self (l : List (Nat × Nat × String)) (ps : List Player) :
    l.foldl (fun acc wk => modifyIdx acc wk.2.1
      (fun p => { p with chips := p.chips })) ps = ps := by
  induction l generalizing ps with
  | nil => rfl
  | cons b bs ih => simp [List.foldl_cons, modifyIdx_chips_self, ih]

/-- C9: settling a second time once the pot is 0 (as it is after any hand has
ended and the stage is back to Waiting) changes no player's stack: every
branch of `collect_pots_and_award` then awards only 0-chip payouts. -/
theorem c9_second_settlement_changes_no_stack (g : Game) (h : g.pot = 0) :
    (g.collect_pots_and_award).1.players.map (·.chips)
      = g.players.map (·.chips) := by
  unfold Game.collect_pots_and_award
  simp only [h, Int.zero_fdiv, Int.zero_fmod, add_zero, ite_self]
  split_ifs <;> simp [modifyIdx_chips_self, foldl_modify_chips_self]

set_option maxRecDepth 16000 in
/-- C9 witness: `settledOnce` is the state after a fully played and settled
hand (stage `waiting`, pot 0); settling it again pays nobody. -/
theorem c9_second_settlement_changes_no_stack_witness :
    settledOnce.pot = 0 ∧ settledOnce.stage = "waiting" ∧
    (settledOnce.collect_pots_and_award).1.players.map (·.chips)
      = settledOnce.players.map (·.chips) :=
  ⟨by decide, by decide,
   c9_second_settlement_changes_no_stack settledOnce (by decide)⟩

/-! ## Claim C10 — hole-card confidentiality -/

def setHole (g : Game) (k : Nat) (h : List Card) : Game :=
  { g with players := modifyIdx g.players k (fun p => { p with hole := h }) }

theorem modifyIdx_length (l : List Player) (i : Nat) (f : Player → Player) :
    (modifyIdx l i f).length = l.length := by
  induction l generalizing i with
  | nil => rfl
  | cons p ps ih => cases i with
    | zero => rfl
    | succ j => simp [modifyIdx, ih]

theorem modifyIdx_of_le (l : List Player) (i : Nat) (f : Player → Player)
    (hle : l.length ≤ i) : modifyIdx l i f = l := by
  induction l generalizing i with
  | nil => rfl
  | cons p ps ih => cases i with
    | zero => simp at hle
    | succ j => simpa [modifyIdx] using ih j (by simpa using hle)

theorem getD_modifyIdx_self (l : List Player) (i : Nat) (f : Player → Player)
    (hi : i < l.length) :
    (modifyIdx l i f).getD i dummyPlayer = f (l.getD i dummyPlayer) := by
  induction l generalizing i with
  | nil => simp at hi
  | cons p ps ih => cases i with
    | zero => rfl
    | succ j => simpa [modifyIdx] using ih j (by simpa using hi)

theorem getD_modifyIdx_ne (l : List Player) (i j : Nat) (f : Player → Player)
    (hij : j ≠ i) :
    (modifyIdx l i f).getD j dummyPlayer = l.getD j dummyPlayer := by
  induction l generalizing i j with
  | nil => rfl
  | cons p ps ih =>
    cases i with
    | zero => cases j with
      | zero => exact absurd rfl hij
      | succ j2 => rfl
    | succ i2 => cases j with
      | zero => rfl
      | succ j2 => simpa [modifyIdx] using ih i2 j2 (fun e => hij (by omega))

theorem map_modifyIdx {β : Type} (l : List Player) (i : Nat) (f : Player → Player)
    (m : Player → β) (hm : m (f (l.getD i dummyPlayer)) = m (l.getD i dummyPlayer)) :
    (modifyIdx l i f).map m = l.map m := by
  induction l generalizing i with
  | nil => rfl
  | cons p ps ih =>
    cases i with
    | zero => simpa [modifyIdx] using hm
    | succ j => simpa [modifyIdx] using ih j hm

theorem getD_map_pub (l : List Player) (m : Player → PublicPlayer) (i : Nat)
    (hi : i < l.length) :
    (l.map m).getD i dummyPublicPlayer = m (l.getD i dummyPlayer) := by
  induction l generalizing i with
  | nil => simp at hi
  | cons p ps ih => cases i with
    | zero => rfl
    | succ j => simpa using ih j (by simpa using hi)

/-- C10: (a) changing another player's hole cards (same count) outside
Showdown leaves the `public_state` snapshot for a requester bit-for-bit
identical — hole cards of non-requesters are never revealed; (b) every
non-requesting player's hole entry in the snapshot is just the hidden
placeholder list `len(hole) * ["XX"]`. -/
theorem c10_hole_cards_hidden (g : Game) (pid : String) (k : Nat) (h : List Card)
    (hid : (g.players.getD k dummyPlayer).id ≠ pid)
    (hstage : g.stage ≠ "showdown")
    (hlen : h.length = (g.players.getD k dummyPlayer).hole.length) :
    ((setHole g k h).public_state pid = g.public_state pid) ∧
    (∀ i, i < g.players.length → (g.players.getD i dummyPlayer).id ≠ pid →
      ((g.public_state pid).players.getD i dummyPublicPlayer).hole
        = List.replicate (g.players.getD i dummyPlayer).hole.length "XX") := by
  constructor
  · unfold Game.public_state setHole
    simp only [PublicState.mk.injEq, and_true, true_and]
    refine ⟨?_, ?_⟩
    · apply map_modifyIdx
      simp only [Player.to_public, PublicPlayer.mk.injEq, and_true, true_and]
      split_ifs with hc
      · exfalso
        rw [Bool.or_eq_true] at hc
        rcases hc with hc1 | hc1
        · exact hid (by simpa using hc1)
        · exact hstage (by simpa using hc1)
      · simp [hlen]
    · by_cases hemp : g.players = []
      · have hmod : modifyIdx ([] : List Player) k (fun p => { p with hole := h }) = [] := by
          cases k <;> rfl
        simp [hemp, hmod]
      · have hlen2 : modifyIdx g.players k (fun p => { p with hole := h }) ≠ [] := by
          intro e
          exact hemp (List.length_eq_zero.mp (by
            rw [← modifyIdx_length g.players k (fun p => { p with hole := h }), e]; rfl))
        by_cases hst : g.started = true
        · rw [if_pos ⟨hlen2, hst⟩, if_pos ⟨hemp, hst⟩]
          by_cases ht : g.turn_idx = k
          · subst ht
            by_cases hlt : g.turn_idx < g.players.length
            · rw [getD_modifyIdx_self _ _ _ hlt]
            · rw [modifyIdx_of_le _ _ _ (Nat.le_of_not_lt hlt)]
          · rw [getD_modifyIdx_ne _ _ _ _ ht]
        · rw [if_neg (fun hp => hst hp.2), if_neg (fun hp => hst hp.2)]
  · intro i hi hid2
    unfold Game.public_state
    simp only
    rw [getD_map_pub _ _ _ hi]
    simp only [Player.to_public]
    split_ifs with hc
    · exfalso
      rw [Bool.or_eq_true] at hc
      rcases hc with hc1 | hc1
      · exact hid2 (by simpa using hc1)
      · exact hstage (by simpa using hc1)
    · rfl

set_option maxRecDepth 8000 in
/-- C10 witness: in the preflop state after `start_hand` in `threeRoom`,
replacing seat 1's hole cards with two different cards produces the identical
snapshot for requester "p0". -/
theorem c10_hole_cards_hidden_witness :
    ((threeRoom.start_hand stdDeck).1.players.getD 1 dummyPlayer).id ≠ "p0" ∧
    (threeRoom.start_hand stdDeck).1.stage ≠ "showdown" ∧
    (setHole (threeRoom.start_hand stdDeck).1 1
        [⟨14, 0⟩, ⟨13, 0⟩]).public_state "p0"
      = (threeRoom.start_hand stdDeck).1.public_state "p0" :=
  ⟨by decide, by decide,
   (c10_hole_cards_hidden (threeRoom.start_hand stdDeck).1 "p0" 1
      [⟨14, 0⟩, ⟨13, 0⟩] (by decide) (by decide) (by decide)).1⟩

/-! ## Claim C4 (amended) — round-closure characterization -/

/-- Every index below `n` is hit by the cyclic scan `(start + j + 1) % n`,
`j < n`, which `next_active_idx` performs. -/
theorem cycleSurj (n start i : Nat) (hn : 0 < n) (hi : i < n) :
    ∃ j, j < n ∧ (start + j + 1) % n = i := by
  refine ⟨(n - (start + 1) % n + i) % n, Nat.mod_lt _ hn, ?_⟩
  have hr : (start + 1) % n < n := Nat.mod_lt _ hn
  have hsplit : start + 1 = n * ((start + 1) / n) + (start + 1) % n :=
    (Nat.div_add_mod _ _).symm
  have h1 : start + (n - (start + 1) % n + i) % n + 1
      = n * ((start + 1) / n) + ((start + 1) % n + (n - (start + 1) % n + i) % n) := by
    omega
  rw [h1, Nat.mul_add_mod, Nat.add_mod_mod]
  have h2 : (start + 1) % n + (n - (start + 1) % n + i) = n + i := by omega
  rw [h2, Nat.add_mod_left, Nat.mod_eq_of_lt hi]

/-- C4: the engine treats a betting round as closed iff at most one player is
in hand, or every in-hand non-all-in player's wager has reached the current
bet.  No opener is tracked: `is_betting_round_over` and `next_active_idx` (the
two closure tests the engine uses) depend only on wagers vs. the current bet,
never on whether action returned to the round's opener. -/
theorem c4_round_closure_amended (g : Game) :
    (g.is_betting_round_over = true ↔
      ((g.players.filter (·.in_hand)).length ≤ 1 ∨
        ∀ p ∈ g.players, p.in_hand = true → p.all_in = false →
          g.current_bet ≤ p.current_bet)) ∧
    (∀ start, g.next_active_idx start = none ↔
      ∀ i, i < g.players.length →
        (g.players.getD i dummyPlayer).in_hand = true →
        (g.players.getD i dummyPlayer).all_in = false →
        g.current_bet ≤ (g.players.getD i dummyPlayer).current_bet) := by
  constructor
  · by_cases hab : (g.players.filter (·.in_hand)).length ≤ 1
    · simp [Game.is_betting_round_over, Game.all_but_one_folded, hab]
    · simp only [Game.is_betting_round_over, Game.all_but_one_folded]
      rw [if_neg (by simpa using hab)]
      simp only [List.all_eq_true, hab, false_or]
      constructor
      · intro hall p hp h1 h2
        have := hall p hp
        simp [h1, h2, not_lt] at this
        exact this
      · intro hall p hp
        by_cases h1 : p.in_hand = true
        · by_cases h2 : p.all_in = true
          · simp [h1, h2]
          · have := hall p hp h1 (by simpa using h2)
            simp [h1, h2, not_lt, this]
        · simp [Bool.eq_false_iff.mpr h1]
  · intro start
    unfold Game.next_active_idx
    rw [List.findSome?_eq_none_iff]
    constructor
    · intro hall i hi h1 h2
      obtain ⟨j, hj, hji⟩ := cycleSurj g.players.length start i
        (lt_of_le_of_lt (Nat.zero_le i) hi) hi
      have hspec := hall j (List.mem_range.mpr hj)
      rw [hji] at hspec
      dsimp only at hspec
      by_contra hlt
      have hpred : ((g.players.getD i dummyPlayer).in_hand &&
          !(g.players.getD i dummyPlayer).all_in &&
          decide ((g.players.getD i dummyPlayer).current_bet < g.current_bet))
          = true := by
        rw [h1, h2]
        simp only [Bool.not_false, Bool.true_and, decide_eq_true_eq]
        exact not_le.mp hlt
      rw [if_pos hpred] at hspec
      exact Option.noConfusion hspec
    · intro hall j hjmem
      have hn : 0 < g.players.length :=
        lt_of_le_of_lt (Nat.zero_le j) (List.mem_range.mp hjmem)
      dsimp only
      have hlt : (start + j + 1) % g.players.length < g.players.length :=
        Nat.mod_lt _ hn
      have hbf : ((g.players.getD ((start + j + 1) % g.players.length)
          dummyPlayer).in_hand &&
          !(g.players.getD ((start + j + 1) % g.players.length)
            dummyPlayer).all_in &&
          decide ((g.players.getD ((start + j + 1) % g.players.length)
            dummyPlayer).current_bet < g.current_bet)) = false := by
        by_cases h1 : (g.players.getD ((start + j + 1) % g.players.length)
            dummyPlayer).in_hand = true
        · by_cases h2 : (g.players.getD ((start + j + 1) % g.players.length)
              dummyPlayer).all_in = true
          · simp only [h1, h2, Bool.not_true, Bool.and_false, Bool.false_and]
          · rw [Bool.not_eq_true] at h2
            have hle := hall _ hlt h1 h2
            have hd : decide ((g.players.getD ((start + j + 1) % g.players.length)
                dummyPlayer).current_bet < g.current_bet) = false :=
              decide_eq_false (not_lt.mpr hle)
            simp only [h1, h2, Bool.not_false, Bool.true_and, hd, Bool.and_false]
        · rw [Bool.not_eq_true] at h1
          simp only [h1, Bool.false_and]
      rw [hbf]
      simp

/-! ## Claim C3 (amended) — raise takes an increment -/

/-- `flush_current_bets_to_pot` changes only wagers and the pot: stacks and
all-in flags are untouched. -/
theorem flush_players_keep (g : Game) (i : Nat) :
    (((g.flush_current_bets_to_pot).players.getD i dummyPlayer).chips
      = (g.players.getD i dummyPlayer).chips) ∧
    (((g.flush_current_bets_to_pot).players.getD i dummyPlayer).all_in
      = (g.players.getD i dummyPlayer).all_in) := by
  unfold Game.flush_current_bets_to_pot
  dsimp only
  split_ifs with h
  · simp only
    induction g.players generalizing i with
    | nil => exact ⟨rfl, rfl⟩
    | cons p ps ih =>
      cases i with
      | zero => exact ⟨rfl, rfl⟩
      | succ j => exact ih j
  · exact ⟨rfl, rfl⟩

theorem runout_players (g : Game) : (g.runout).players = g.players := by
  unfold Game.runout dealN
  by_cases h1 : (g.stage == "preflop") = true <;>
    by_cases h2 : (g.stage == "flop") = true <;>
      by_cases h3 : (g.stage == "turn") = true <;>
        by_cases h4 : (g.stage == "river") = true <;>
          simp [h1, h2, h3, h4]

theorem afterDeal_players (g : Game) : (g.afterDeal).players = g.players := by
  unfold Game.afterDeal
  dsimp only
  split
  · exact runout_players _
  · rfl

theorem advance_stage_players_keep (g : Game) (i : Nat) :
    (((g.advance_stage).players.getD i dummyPlayer).chips
      = (g.players.getD i dummyPlayer).chips) ∧
    (((g.advance_stage).players.getD i dummyPlayer).all_in
      = (g.players.getD i dummyPlayer).all_in) := by
  simp only [Game.advance_stage]
  split_ifs <;>
    first
      | (rw [afterDeal_players]; exact flush_players_keep g i)
      | exact flush_players_keep g i

/-- The turn advance at the end of fold/check/call/raise (including a
round-closing `advance_stage`) never changes a stack or an all-in flag. -/
theorem advanceTurn_players_keep (g : Game) (i : Nat) :
    (((g.advanceTurn).players.getD i dummyPlayer).chips
      = (g.players.getD i dummyPlayer).chips) ∧
    (((g.advanceTurn).players.getD i dummyPlayer).all_in
      = (g.players.getD i dummyPlayer).all_in) := by
  unfold Game.advanceTurn
  split
  · exact advance_stage_players_keep g i
  · exact ⟨rfl, rfl⟩

/-- The first player `find?` returns sits at index `findIdx` of the same
predicate (Python mutates that very object in the list). -/
theorem find?_getD_findIdx (l : List Player) (q : Player → Bool) (p : Player)
    (h : l.find? q = some p) : l.getD (l.findIdx q) dummyPlayer = p := by
  induction l with
  | nil => exact Option.noConfusion h
  | cons a as ih =>
    by_cases hq : q a = true
    · rw [List.find?_cons_of_pos _ hq] at h
      rw [List.findIdx_cons, hq]
      simpa using Option.some.inj h
    · rw [List.find?_cons_of_neg _ hq] at h
      rw [List.findIdx_cons, Bool.eq_false_iff.mpr hq]
      simpa using ih h

theorem raiseApply_getD (g : Game) (pi : Nat) (amount : Int) (p : Player)
    (hpi : pi < g.players.length)
    (hp : g.players.getD pi dummyPlayer = p) :
    (((g.raiseApply pi amount p).players.getD pi dummyPlayer).chips
      = p.chips - (if decide (g.current_bet - p.current_bet + amount ≥ p.chips)
                   then p.chips else g.current_bet - p.current_bet + amount)) ∧
    (((g.raiseApply pi amount p).players.getD pi dummyPlayer).all_in
      = (p.all_in || decide (g.current_bet - p.current_bet + amount ≥ p.chips))) := by
  unfold Game.raiseApply
  dsimp only
  split_ifs with hgt hgt2 <;>
    (rw [getD_modifyIdx_self g.players pi _ hpi, hp]; exact ⟨rfl, rfl⟩)

/-- C3: amended semantics of raise.  Under the engine's turn discipline
(the caller is the in-hand, non-all-in player at the turn index, with unique
id, during a started hand), a raise with argument `amount` is accepted iff
`amount` is positive and either reaches the minimum legal increment (the last
recorded raise size, else the big blind) or `to_call + amount` covers the
whole stack; when accepted, `amount` acts as an increment: the actor commits
`min(to_call + amount, stack)` chips from the stack (so the new wager is
`current bet + amount`, capped at an all-in), and ends all-in exactly when
capped. -/
theorem c3_raise_increment_amended (g : Game) (pid : String) (amount : Int) (p : Player)
    (hf : g.find_player pid = some p)
    (hin : p.in_hand = true)
    (hst : g.started = true)
    (hturn : (g.players.getD g.turn_idx dummyPlayer).id = pid)
    (hna : p.all_in = false)
    (hidx : g.pIdx pid = g.turn_idx)
    (hti : g.turn_idx < g.players.length) :
    ((g.player_action pid "raise" amount).2.1 = true ↔
      (0 < amount ∧
        ((if g.last_raiser_idx ≠ -1 then g.last_raise_amount else g.bb) ≤ amount
          ∨ p.chips ≤ g.current_bet - p.current_bet + amount))) ∧
    ((g.player_action pid "raise" amount).2.1 = true →
      (((g.player_action pid "raise" amount).1.players.getD g.turn_idx
          dummyPlayer).chips
        = p.chips - min (g.current_bet - p.current_bet + amount) p.chips) ∧
      (((g.player_action pid "raise" amount).1.players.getD g.turn_idx
          dummyPlayer).all_in
        = decide (p.chips ≤ g.current_bet - p.current_bet + amount))) := by
  have hp_at : g.players.getD g.turn_idx dummyPlayer = p := by
    have h0 := find?_getD_findIdx g.players (fun q => q.id == pid) p hf
    rw [Game.pIdx] at hidx
    rw [← hidx]
    exact h0
  unfold Game.player_action
  simp only [hf]
  rw [if_neg (by rw [hin]; simp)]
  rw [if_neg (by rw [hst]; simp)]
  rw [if_neg (fun hne => hne hturn)]
  rw [if_neg (by rw [hna]; simp)]
  rw [if_neg (by decide : ¬((lowerStr "raise" == "fold") = true))]
  rw [if_neg (by decide : ¬((lowerStr "raise" == "check") = true))]
  rw [if_neg (by decide : ¬((lowerStr "raise" == "call") = true))]
  rw [if_pos (by decide : (lowerStr "raise" == "raise") = true)]
  by_cases ha : amount ≤ 0
  · rw [if_pos ha]
    constructor
    · exact iff_of_false (by simp) (fun hc => absurd hc.1 (not_lt.mpr ha))
    · intro htrue
      exact absurd htrue (by simp)
  · rw [if_neg ha]
    by_cases hb : amount < (if g.last_raiser_idx ≠ -1 then g.last_raise_amount
        else g.bb) ∧ g.current_bet - p.current_bet + amount < p.chips
    · rw [if_pos hb]
      constructor
      · refine iff_of_false (by simp) ?_
        rintro ⟨h0, hor⟩
        rcases hor with hle | hle
        · exact absurd hb.1 (not_lt.mpr hle)
        · exact absurd hb.2 (not_lt.mpr hle)
      · intro htrue
        exact absurd htrue (by simp)
    · rw [if_neg hb]
      constructor
      · refine iff_of_true rfl ⟨not_le.mp ha, ?_⟩
        rcases not_and_or.mp hb with hx | hx
        · exact Or.inl (not_lt.mp hx)
        · exact Or.inr (not_lt.mp hx)
      · intro _
        dsimp only
        rw [hidx]
        obtain ⟨hch, hai⟩ :=
          advanceTurn_players_keep (g.raiseApply g.turn_idx amount p) g.turn_idx
        rw [hch, hai]
        obtain ⟨hc2, ha2⟩ := raiseApply_getD g g.turn_idx amount p hti hp_at
        rw [hc2, ha2, hna]
        constructor
        · split_ifs with hc
          · rw [min_eq_right (of_decide_eq_true hc)]
          · have hle : g.current_bet - p.current_bet + amount ≤ p.chips :=
              le_of_lt (lt_of_not_ge (of_decide_eq_false
                (by rwa [Bool.not_eq_true] at hc)))
            rw [min_eq_left hle]
        · simp only [Bool.false_or]


/-- C3 witness: in `raiseState` (current bet 20, actor wager 0, stack 1000), a
raise of 20 is accepted and commits 40 chips, leaving 960. -/
theorem c3_raise_increment_amended_witness :
    (raiseState.player_action "p0" "raise" 20).2.1 = true ∧
    ((raiseState.player_action "p0" "raise" 20).1.players.getD
        raiseState.turn_idx dummyPlayer).chips = 960 := by
  have h := c3_raise_increment_amended raiseState "p0" 20
      ⟨"p0", "A", 1000, [], true, 0, false⟩ (by decide) (by decide) (by decide)
      (by decide) (by decide) (by decide) (by decide)
  refine ⟨h.1.mpr ⟨by decide, Or.inl (by decide)⟩, ?_⟩
  have h2 := (h.2 (h.1.mpr ⟨by decide, Or.inl (by decide)⟩)).1
  rw [h2]
  decide

/-! ## Claim C2 (amended) — single-pot settlement -/

theorem lexGtI_irrefl (a : List Int) : lexGtI a a = false := by
  induction a with
  | nil => rfl
  | cons x xs ih => simp [lexGtI, ih]

theorem scoreGt_irrefl (a : Score) : scoreGt a a = false := by
  simp [scoreGt, lexGtI_irrefl]

theorem lexGtI_trans (a b c : List Int) (hab : lexGtI a b = true)
    (hbc : lexGtI b c = true) : lexGtI a c = true := by
  induction a generalizing b c with
  | nil => simp [lexGtI] at hab
  | cons x xs ih =>
    cases b with
    | nil => simp [lexGtI] at hbc
    | cons y ys =>
      cases c with
      | nil => rfl
      | cons z zs =>
        simp only [lexGtI] at hab hbc ⊢
        split_ifs at hab hbc ⊢ with h1 h2 h3 h4 h5 h6 <;>
          first
            | rfl
            | omega
            | (exact absurd hab Bool.false_ne_true)
            | (exact absurd hbc Bool.false_ne_true)
            | skip
        all_goals
          first
            | omega
            | exact ih ys zs hab hbc

theorem scoreGt_trans (a b c : Score) (hab : scoreGt a b = true)
    (hbc : scoreGt b c = true) : scoreGt a c = true := by
  simp only [scoreGt] at hab hbc ⊢
  split_ifs at hab hbc ⊢ with h1 h2 h3 h4 h5 h6 <;>
    first
      | rfl
      | omega
      | (exact absurd hab Bool.false_ne_true)
      | (exact absurd hbc Bool.false_ne_true)
      | skip
  all_goals
    first
      | omega
      | exact lexGtI_trans a.2 b.2 c.2 hab hbc

theorem scoreGt_asymm (a b : Score) (h : scoreGt a b = true) :
    scoreGt b a = false := by
  by_contra hc
  have h2 : scoreGt b a = true := by
    cases hba : scoreGt b a
    · exact absurd hba hc
    · rfl
  have := scoreGt_trans a b a h h2
  rw [scoreGt_irrefl] at this
  exact Bool.noConfusion this

/-- Behaviour of the winner-selection fold of `collect_pots_and_award` from an
accumulator `(some b, ws)`: the final best score dominates everything scanned,
and every recorded winner carries exactly the final best score. -/
theorem winnerFold_closed (l : List (Nat × Score)) (b : Score)
    (ws : List (Nat × String)) (Q : Nat → Prop) (sc : Nat → Score)
    (hws : ∀ w ∈ ws, Q w.1 ∧ sc w.1 = b)
    (hl : ∀ x ∈ l, Q x.1 ∧ x.2 = sc x.1) :
    ∃ bfin, (l.foldl winnerStep (some b, ws)).1 = some bfin ∧
      (bfin = b ∨ scoreGt bfin b = true) ∧
      (∀ w ∈ (l.foldl winnerStep (some b, ws)).2, Q w.1 ∧ sc w.1 = bfin) ∧
      (∀ x ∈ l, scoreGt x.2 bfin = false) ∧
      (ws ≠ [] → (l.foldl winnerStep (some b, ws)).2 ≠ []) := by
  induction l generalizing b ws with
  | nil =>
    exact ⟨b, rfl, Or.inl rfl, hws,
      fun x hx => absurd hx (List.not_mem_nil x), fun h => h⟩
  | cons x xs ih =>
    simp only [List.foldl_cons]
    have hx := hl x (List.mem_cons_self x xs)
    by_cases hgt : scoreGt x.2 b = true
    · have hstep : winnerStep (some b, ws) x
          = (some x.2, [(x.1, handRankName x.2.1)]) := by
        simp [winnerStep, hgt]
      rw [hstep]
      obtain ⟨bfin, h1, h2, h3, h4, h5⟩ := ih x.2 [(x.1, handRankName x.2.1)]
        (by intro w hw
            rcases List.mem_singleton.mp hw with rfl
            exact ⟨hx.1, hx.2.symm⟩)
        (fun y hy => hl y (List.mem_cons_of_mem x hy))
      refine ⟨bfin, h1, ?_, h3, ?_, fun _ => h5 (by simp)⟩
      · rcases h2 with rfl | h2
        · exact Or.inr hgt
        · exact Or.inr (scoreGt_trans _ _ _ h2 hgt)
      · intro y hy
        rcases List.mem_cons.mp hy with rfl | hmem
        · rcases h2 with rfl | h2
          · exact scoreGt_irrefl _
          · exact scoreGt_asymm _ _ h2
        · exact h4 y hmem
    · by_cases heq : x.2 = b
      · have hstep : winnerStep (some b, ws) x
            = (some b, ws ++ [(x.1, handRankName x.2.1)]) := by
          simp [winnerStep, hgt, heq, scoreGt_irrefl]
        rw [hstep]
        obtain ⟨bfin, h1, h2, h3, h4, h5⟩ := ih b (ws ++ [(x.1, handRankName x.2.1)])
          (by intro w hw
              rcases List.mem_append.mp hw with hw1 | hw1
              · exact hws w hw1
              · rcases List.mem_singleton.mp hw1 with rfl
                exact ⟨hx.1, by rw [← hx.2, heq]⟩)
          (fun y hy => hl y (List.mem_cons_of_mem x hy))
        refine ⟨bfin, h1, h2, h3, ?_, fun _ => h5 (by simp)⟩
        intro y hy
        rcases List.mem_cons.mp hy with rfl | hmem
        · rcases h2 with rfl | h2
          · rw [heq]
            exact scoreGt_irrefl _
          · rw [heq]
            exact scoreGt_asymm _ _ h2
        · exact h4 y hmem
      · have hstep : winnerStep (some b, ws) x = (some b, ws) := by
          simp [winnerStep, hgt, heq]
        rw [hstep]
        obtain ⟨bfin, h1, h2, h3, h4, h5⟩ := ih b ws hws
          (fun y hy => hl y (List.mem_cons_of_mem x hy))
        refine ⟨bfin, h1, h2, h3, ?_, h5⟩
        intro y hy
        rcases List.mem_cons.mp hy with rfl | hmem
        · rcases h2 with rfl | h2
          · simpa using hgt
          · cases hyb : scoreGt y.2 bfin
            · rfl
            · exact absurd (scoreGt_trans _ _ _ hyb h2) (by simp [hgt])
        · exact h4 y hmem

/-- The showdown winner list is non-empty and consists of in-hand players
whose seven-card score nobody in hand beats. -/
theorem showdownWinners_spec (g : Game) (h2 : g.scoredIdx ≠ []) :
    g.showdownWinners ≠ [] ∧
    ∀ w ∈ g.showdownWinners, w.1 ∈ g.inplayIdx ∧
      (∀ j ∈ g.inplayIdx, scoreGt (g.bestOf j) (g.bestOf w.1) = false) := by
  unfold Game.showdownWinners
  have hmem : ∀ y ∈ g.scoredIdx, y.1 ∈ g.inplayIdx ∧ y.2 = g.bestOf y.1 := by
    intro y hy
    unfold Game.scoredIdx at hy
    obtain ⟨i, hi, rfl⟩ := List.mem_map.mp hy
    exact ⟨hi, rfl⟩
  cases hsc : g.scoredIdx with
  | nil => exact absurd hsc h2
  | cons x xs =>
    rw [List.foldl_cons]
    have hstep : winnerStep (none, ([] : List (Nat × String))) x
        = (some x.2, [(x.1, handRankName x.2.1)]) := rfl
    rw [hstep]
    obtain ⟨bfin, h1, hge, hwin, hmax, hne⟩ := winnerFold_closed xs x.2
      [(x.1, handRankName x.2.1)] (· ∈ g.inplayIdx) g.bestOf
      (by intro w hw
          rcases List.mem_singleton.mp hw with rfl
          have hx := hmem x (by rw [hsc]; exact List.mem_cons_self x xs)
          exact ⟨hx.1, hx.2.symm⟩)
      (by intro y hy
          exact hmem y (by rw [hsc]; exact List.mem_cons_of_mem x hy))
    constructor
    · exact hne (by simp)
    · intro w hw
      have hw2 := hwin w hw
      refine ⟨hw2.1, ?_⟩
      intro j hj
      have hjmem : (j, g.bestOf j) ∈ g.scoredIdx := by
        unfold Game.scoredIdx
        exact List.mem_map.mpr ⟨j, hj, rfl⟩
      rw [hw2.2]
      rw [hsc] at hjmem
      rcases List.mem_cons.mp hjmem with hjx | hjxs
      · have hbj : g.bestOf j = x.2 := congrArg Prod.snd hjx
        rw [hbj]
        rcases hge with rfl | hgt2
        · exact scoreGt_irrefl _
        · exact scoreGt_asymm _ _ hgt2
      · exact hmax _ hjxs

theorem enumFrom_award_sum (l : List (Nat × String)) (sp rem : Int) (s : Nat)
    (hs : s ≠ 0) :
    ((l.enumFrom s).map (fun wk => sp + if wk.1 = 0 then rem else 0)).sum
      = (l.length : Int) * sp := by
  induction l generalizing s with
  | nil => simp
  | cons w ws ih =>
    simp only [List.enumFrom, List.map_cons, List.sum_cons]
    rw [if_neg hs, ih (s + 1) (Nat.succ_ne_zero s)]
    simp only [List.length_cons]
    push_cast
    ring

theorem enum_award_sum (l : List (Nat × String)) (sp rem : Int) (h : l ≠ []) :
    (l.enum.map (fun wk => sp + if wk.1 = 0 then rem else 0)).sum
      = (l.length : Int) * sp + rem := by
  cases l with
  | nil => exact absurd rfl h
  | cons w ws =>
    simp only [List.enum, List.enumFrom, List.map_cons, List.sum_cons]
    rw [if_pos trivial, enumFrom_award_sum ws sp rem 1 one_ne_zero]
    simp only [List.length_cons]
    push_cast
    ring

/-- C2: what settlement actually does with two or more players in hand — no
layers, no eligibility levels: one single pot is split among the players with
the maximal seven-card score (remainder to the first of them in seat order);
the amounts awarded sum exactly to the pot, and the pot is reset to 0. -/
theorem c2_settlement_single_pot_amended (g : Game)
    (h2 : 2 ≤ g.inplayIdx.length) :
    (((g.collect_pots_and_award).2.map (·.amount)).sum = g.pot) ∧
    ((g.collect_pots_and_award).1.pot = 0) ∧
    (g.showdownWinners ≠ []) ∧
    (∀ w ∈ g.showdownWinners, w.1 ∈ g.inplayIdx ∧
      ∀ j ∈ g.inplayIdx, scoreGt (g.bestOf j) (g.bestOf w.1) = false) := by
  have hscne : g.scoredIdx ≠ [] := by
    unfold Game.scoredIdx
    intro he
    rw [List.map_eq_nil_iff] at he
    rw [he] at h2
    simp at h2
  obtain ⟨hwne, hwprop⟩ := showdownWinners_spec g hscne
  have hcond1 : ¬((g.inplayIdx.length == 1) = true) := by
    intro hc
    rw [beq_iff_eq] at hc
    omega
  have hcond2 : ¬((g.showdownWinners.length == 0) = true) := by
    simp only [beq_iff_eq, List.length_eq_zero]
    exact hwne
  refine ⟨?_, ?_, hwne, hwprop⟩
  · unfold Game.collect_pots_and_award
    rw [if_neg hcond1]
    dsimp only
    rw [if_neg hcond2]
    dsimp only
    rw [List.map_map]
    have hmm : ((fun r : AwardResult => r.amount) ∘ (fun wk : Nat × Nat × String =>
        (⟨(g.players.getD wk.2.1 dummyPlayer).name,
          g.pot.fdiv (g.showdownWinners.length : Int) +
            (if wk.1 = 0 then g.pot.fmod (g.showdownWinners.length : Int) else 0),
          wk.2.2⟩ : AwardResult)))
        = (fun wk : Nat × Nat × String =>
            g.pot.fdiv (g.showdownWinners.length : Int) +
              (if wk.1 = 0 then g.pot.fmod (g.showdownWinners.length : Int) else 0)) := rfl
    rw [hmm, enum_award_sum _ _ _ hwne, Int.fdiv_add_fmod]
  · unfold Game.collect_pots_and_award
    rw [if_neg hcond1]
    dsimp only
    rw [if_neg hcond2]


set_option maxRecDepth 16000 in
/-- C2 witness: in `sidePotShowdown` (three in-hand players, pot 230) the
awards sum to the whole pot. -/
theorem c2_settlement_single_pot_amended_witness :
    2 ≤ sidePotShowdown.inplayIdx.length ∧
    ((sidePotShowdown.collect_pots_and_award).2.map (·.amount)).sum
      = sidePotShowdown.pot :=
  ⟨by decide, (c2_settlement_single_pot_amended sidePotShowdown (by decide)).1⟩

/-! ## Claim C7 — evaluator ordering -/

theorem insertDescI_perm (x : Int) (l : List Int) :
    (insertDescI x l).Perm (x :: l) := by
  induction l with
  | nil => exact List.Perm.refl _
  | cons y ys ih =>
    unfold insertDescI
    split_ifs
    · exact List.Perm.refl _
    · exact (List.Perm.cons y ih).trans (List.Perm.swap x y ys)

theorem sortDescI_perm (l : List Int) : (sortDescI l).Perm l := by
  induction l with
  | nil => exact List.Perm.refl _
  | cons x xs ih =>
    exact (insertDescI_perm x (sortDescI xs)).trans (List.Perm.cons x ih)

theorem insertPair_perm (x : Int × Int) (l : List (Int × Int)) :
    (insertPair x l).Perm (x :: l) := by
  induction l with
  | nil => exact List.Perm.refl _
  | cons y ys ih =>
    unfold insertPair
    split_ifs
    · exact List.Perm.refl _
    · exact (List.Perm.cons y ih).trans (List.Perm.swap x y ys)

theorem sortPairs_perm (l : List (Int × Int)) : (sortPairs l).Perm l := by
  induction l with
  | nil => exact List.Perm.refl _
  | cons x xs ih =>
    exact (insertPair_perm x (sortPairs xs)).trans (List.Perm.cons x ih)

theorem insertPair_headD_ge (y : Int × Int) (s : List (Int × Int)) :
    y.2 ≤ ((insertPair y s).headD (0, 0)).2 ∧
    (s ≠ [] → (s.headD (0, 0)).2 ≤ ((insertPair y s).headD (0, 0)).2) := by
  cases s with
  | nil => exact ⟨le_refl _, fun h => absurd rfl h⟩
  | cons z zs =>
    unfold insertPair
    split_ifs with h
    · unfold pairBefore at h
      rw [Bool.or_eq_true] at h
      rcases h with h1 | h1
      · exact ⟨le_refl _, fun _ => le_of_lt (by simpa using h1)⟩
      · rw [Bool.and_eq_true] at h1
        exact ⟨le_refl _, fun _ =>
          le_of_eq (by simpa using (beq_iff_eq.mp h1.1).symm)⟩
    · unfold pairBefore at h
      rw [Bool.or_eq_true, not_or] at h
      have hle : y.2 ≤ z.2 := le_of_not_lt (by simpa using h.1)
      exact ⟨hle, fun _ => le_refl _⟩

theorem sortPairs_headD_max (l : List (Int × Int)) (x : Int × Int) (hx : x ∈ l) :
    x.2 ≤ ((sortPairs l).headD (0, 0)).2 := by
  induction l with
  | nil => exact absurd hx (List.not_mem_nil x)
  | cons y ys ih =>
    have hins := insertPair_headD_ge y (sortPairs ys)
    rcases List.mem_cons.mp hx with rfl | hmem
    · exact hins.1
    · have h1 := ih hmem
      cases hys : sortPairs ys with
      | nil =>
        exfalso
        have hmem2 : x ∈ sortPairs ys := (sortPairs_perm ys).symm.mem_iff.mp hmem
        rw [hys] at hmem2
        exact List.not_mem_nil x hmem2
      | cons a as =>
        have h2 := hins.2 (by rw [hys]; exact List.cons_ne_nil a as)
        rw [hys] at h1 h2
        simp only [sortPairs]
        rw [hys]
        exact le_trans h1 h2

theorem sortPairs_headD_mem (l : List (Int × Int)) (hl : l ≠ []) :
    ((sortPairs l).headD (0, 0)) ∈ l := by
  have hperm := sortPairs_perm l
  cases hs : sortPairs l with
  | nil =>
    exfalso
    cases l with
    | nil => exact hl rfl
    | cons x xs =>
      have := hperm.length_eq
      rw [hs] at this
      simp at this
  | cons a as =>
    have : a ∈ sortPairs l := by rw [hs]; exact List.mem_cons_self a as
    simpa using hperm.mem_iff.mp this

theorem nodup_lt_four_length (l : List Nat) (hnd : l.Nodup)
    (hb : ∀ x ∈ l, x < 4) : l.length ≤ 4 := by
  have h1 : l.toFinset ⊆ Finset.range 4 := by
    intro x hx
    simp only [List.mem_toFinset] at hx
    simpa using hb x hx
  have h2 := Finset.card_le_card h1
  rw [Finset.card_range] at h2
  rwa [List.toFinset_card_of_nodup hnd] at h2

theorem count_map_value_eq_filter_length (t : List Card) (v : Int) :
    (t.map (·.value)).count v = (t.filter (fun c => c.value == v)).length := by
  induction t with
  | nil => rfl
  | cons c cs ih =>
    by_cases hv : c.value = v
    · simp [List.count_cons, List.filter_cons, hv, ih]
    · simp [List.count_cons, List.filter_cons, hv, ih, Ne.symm hv]

theorem card_value_count_le_four (t : List Card) (hnd : t.Nodup)
    (hsuit : ∀ c ∈ t, c.suit < 4) (v : Int) :
    (t.map (·.value)).count v ≤ 4 := by
  rw [count_map_value_eq_filter_length]
  have hfnd : (t.filter (fun c => c.value == v)).Nodup := hnd.filter _
  have hmapnd : ((t.filter (fun c => c.value == v)).map (·.suit)).Nodup := by
    apply List.Nodup.map_on ?_ hfnd
    intro x hx y hy hxy
    have hxv : x.value = v := by
      simpa using (List.mem_filter.mp hx).2
    have hyv : y.value = v := by
      simpa using (List.mem_filter.mp hy).2
    cases x
    cases y
    simp_all
  have hlen := nodup_lt_four_length _ hmapnd (by
    intro s hs
    obtain ⟨c, hc, rfl⟩ := List.mem_map.mp hs
    exact hsuit c (List.mem_of_mem_filter hc))
  simpa using hlen

theorem bct_top_bounds (t : List Card) (a : Int)
    (hcnt : 2 ≤ (t.map (·.value)).count a)
    (hbound : ∀ v : Int, (t.map (·.value)).count v ≤ 4) :
    2 ≤ ((by_count_then_value (sortDescI (t.map (·.value)))).headD (0, 0)).2 ∧
    ((by_count_then_value (sortDescI (t.map (·.value)))).headD (0, 0)).2 ≤ 4 := by
  have hperm := sortDescI_perm (t.map (·.value))
  have hcount : ∀ v : Int, (sortDescI (t.map (·.value))).count v
      = (t.map (·.value)).count v := fun v => hperm.count_eq v
  have hamem : a ∈ (sortDescI (t.map (·.value))).dedup := by
    rw [List.mem_dedup]
    have : 0 < (sortDescI (t.map (·.value))).count a := by
      rw [hcount]
      omega
    exact List.count_pos_iff.mp this
  have hpair : (a, ((sortDescI (t.map (·.value))).count a : Int)) ∈
      (sortDescI (t.map (·.value))).dedup.map
        (fun v => (v, ((sortDescI (t.map (·.value))).count v : Int))) :=
    List.mem_map.mpr ⟨a, hamem, rfl⟩
  constructor
  · have h1 := sortPairs_headD_max _ _ hpair
    unfold by_count_then_value
    refine le_trans ?_ h1
    rw [hcount]
    simpa using hcnt
  · unfold by_count_then_value
    have hne : (sortDescI (t.map (·.value))).dedup.map
        (fun v => (v, ((sortDescI (t.map (·.value))).count v : Int))) ≠ [] := by
      intro he
      rw [he] at hpair
      exact List.not_mem_nil _ hpair
    obtain ⟨v, _, hv⟩ := List.mem_map.mp (sortPairs_headD_mem _ hne)
    rw [← hv]
    have hb2 := hbound v
    rw [← hcount v] at hb2
    simpa using hb2

theorem flushCheck_fst (cards : List Card) (sc : Score)
    (h : flushCheck cards = some sc) : sc.1 = 5 := by
  unfold flushCheck at h
  obtain ⟨s, _, hs⟩ := List.exists_of_findSome?_eq_some h
  dsimp only at hs
  split_ifs at hs
  exact (congrArg Prod.fst (Option.some.inj hs)).symm

/-- If the top group of `by_count_then_value` has between 2 and 4 cards,
`evaluate_5cards` classifies at least One Pair: every return branch except the
final High Card carries a category of at least 1, and the High Card branch is
unreachable with a repeated rank. -/
theorem evaluate_pair_ge_one (t : List Card)
    (h2 : 2 ≤ ((by_count_then_value (sortDescI (t.map (·.value)))).headD (0, 0)).2)
    (h4 : ((by_count_then_value (sortDescI (t.map (·.value)))).headD (0, 0)).2 ≤ 4) :
    1 ≤ (evaluate_5cards t).1 := by
  unfold evaluate_5cards
  cases hsf : straightFlushCheck t with
  | some fh => simp [hsf]
  | none =>
    simp only [hsf]
    split_ifs with hc1 hc2 <;> try norm_num
    all_goals
      split
      · rename_i sc hsc
        rw [flushCheck_fst t sc hsc]
        norm_num
      · split
        · norm_num
        · try norm_num
          try (
            exfalso
            rename_i h3 hpp h2p xa ha xb hb
            rw [beq_iff_eq] at hc1 h3 h2p
            omega)

/-- Any sublist of length at most `m` of a list of length at least `m` can be
grown into an intermediate sublist of length exactly `m`. -/
theorem sublist_extend {α : Type} (l s : List α) (m : Nat) (hls : l.Sublist s)
    (h1 : l.length ≤ m) (h2 : m ≤ s.length) :
    ∃ t, l.Sublist t ∧ t.Sublist s ∧ t.length = m := by
  induction hls generalizing m with
  | slnil =>
    refine ⟨[], List.Sublist.refl [], List.Sublist.refl [], ?_⟩
    simp at h2
    omega
  | @cons l1 s1 a hsub ih =>
    by_cases hm : m ≤ s1.length
    · obtain ⟨t, ht1, ht2, ht3⟩ := ih m h1 hm
      exact ⟨t, ht1, ht2.cons a, ht3⟩
    · have hm2 : m = s1.length + 1 := by
        simp at h2
        omega
      have hll : l1.length ≤ s1.length := hsub.length_le
      obtain ⟨t, ht1, ht2, ht3⟩ := ih s1.length hll (le_refl _)
      exact ⟨a :: t, ht1.cons a, ht2.cons₂ a, by simp [ht3, hm2]⟩
  | @cons₂ l1 s1 a hsub ih =>
    have hm1 : l1.length + 1 ≤ m := by simpa using h1
    obtain ⟨t, ht1, ht2, ht3⟩ := ih (m - 1) (by omega) (by simp at h2; omega)
    refine ⟨a :: t, ht1.cons₂ a, ht2.cons₂ a, ?_⟩
    simp [ht3]
    omega

theorem lexGtI_neg_trans (a b c : List Int) (hab : lexGtI a b = false)
    (hbc : lexGtI b c = false) : lexGtI a c = false := by
  induction a generalizing b c with
  | nil => rfl
  | cons x xs ih =>
    cases b with
    | nil => simp [lexGtI] at hab
    | cons y ys =>
      cases c with
      | nil => simp [lexGtI] at hbc
      | cons z zs =>
        simp only [lexGtI] at hab hbc ⊢
        split_ifs at hab hbc ⊢ <;>
          first
            | rfl
            | omega
            | (exact ih ys zs hab hbc)

theorem scoreGt_neg_trans (a b c : Score) (hab : scoreGt a b = false)
    (hbc : scoreGt b c = false) : scoreGt a c = false := by
  simp only [scoreGt] at hab hbc ⊢
  split_ifs at hab hbc ⊢ <;>
    first
      | rfl
      | omega
      | (exact lexGtI_neg_trans a.2 b.2 c.2 hab hbc)

theorem foldMax_mono (ys : List (List Card)) (i : Score) :
    scoreGt i (ys.foldl (fun best combo =>
      if scoreGt (evaluate_5cards combo) best then evaluate_5cards combo
      else best) i) = false := by
  induction ys generalizing i with
  | nil => exact scoreGt_irrefl i
  | cons z zs ihz =>
    simp only [List.foldl_cons]
    by_cases hz : scoreGt (evaluate_5cards z) i = true
    · rw [if_pos hz]
      exact scoreGt_neg_trans _ _ _ (scoreGt_asymm _ _ hz)
        (ihz (evaluate_5cards z))
    · rw [if_neg hz]
      exact ihz i

/-- `best_from_seven` dominates the score of every 5-card subsequence. -/
theorem best_from_seven_ge (s : List Card) :
    ∀ c ∈ List.sublistsLen 5 s,
      scoreGt (evaluate_5cards c) (best_from_seven s) = false := by
  unfold best_from_seven
  suffices h : ∀ (l : List (List Card)) (init : Score),
      (∀ c ∈ l, scoreGt (evaluate_5cards c)
        (l.foldl (fun best combo =>
          if scoreGt (evaluate_5cards combo) best then evaluate_5cards combo
          else best) init) = false) by
    intro c hc
    exact h (List.sublistsLen 5 s) ((-1 : Int), []) c hc
  intro l
  induction l with
  | nil => intro init c hc; exact absurd hc (List.not_mem_nil c)
  | cons y ys ih =>
    intro init c hc
    simp only [List.foldl_cons]
    rcases List.mem_cons.mp hc with rfl | hmem
    · by_cases hy : scoreGt (evaluate_5cards c) init = true
      · rw [if_pos hy]
        exact foldMax_mono ys (evaluate_5cards c)
      · rw [if_neg hy]
        exact scoreGt_neg_trans _ _ _ (by simpa using hy) (foldMax_mono ys init)
    · exact ih _ c hmem

theorem scoreGt_false_fst_le (e b : Score) (h : scoreGt e b = false) :
    e.1 ≤ b.1 := by
  unfold scoreGt at h
  split_ifs at h with h1 h2 <;> omega

/-- The concrete wheel straight A-2-3-4-5 in mixed suits. -/
def wheelHand : List Card := [⟨14, 0⟩, ⟨2, 1⟩, ⟨3, 2⟩, ⟨4, 3⟩, ⟨5, 0⟩]

/-- The concrete 6-high straight 2-3-4-5-6 in mixed suits. -/
def sixHighHand : List Card := [⟨2, 1⟩, ⟨3, 2⟩, ⟨4, 3⟩, ⟨5, 0⟩, ⟨6, 1⟩]

/-- A, K, Q, J, 9 in four distinct suits plus two low cards. -/
def highCardSeven : List Card :=
  [⟨14, 0⟩, ⟨13, 1⟩, ⟨12, 2⟩, ⟨11, 3⟩, ⟨9, 0⟩, ⟨2, 1⟩, ⟨3, 2⟩]

set_option maxRecDepth 16000 in
/-- C7: the evaluator's ordering facts claimed by the spec.
(a) A 7-card hand of real cards (pairwise distinct, 4 suits) containing two
cards of equal rank always scores strictly above any 7-card hand whose best
score is a mere High Card (category 0): some 5-card subset of the former
contains the pair, `evaluate_5cards` never classifies a multiset with a
repeated rank below One Pair, and `best_from_seven` dominates each subset.
(b) The wheel A-2-3-4-5 evaluates to a 5-high straight `(4, [5])`, strictly
below the 6-high straight `(4, [6])`.
(c) A,K,Q,J,9 of four distinct suits plus two low cards is High Card with
kickers `(14, 13, 12, 11, 9)`. -/
theorem c7_evaluator_ordering :
    (∀ s1 s2 : List Card, s1.length = 7 → s2.length = 7 → s1.Nodup →
      (∀ c ∈ s1, c.suit < 4) →
      (∃ a, 2 ≤ (s1.map (·.value)).count a) →
      (best_from_seven s2).1 = 0 →
      scoreGt (best_from_seven s1) (best_from_seven s2) = true) ∧
    (evaluate_5cards wheelHand = (4, [5]) ∧
     evaluate_5cards sixHighHand = (4, [6]) ∧
     scoreGt (evaluate_5cards sixHighHand) (evaluate_5cards wheelHand) = true) ∧
    best_from_seven highCardSeven = (0, [14, 13, 12, 11, 9]) := by
  refine ⟨?_, by decide, by decide⟩
  rintro s1 s2 hlen1 hlen2 hnd hsuit ⟨a, hcnt⟩ hhc
  rw [count_map_value_eq_filter_length] at hcnt
  have hsub2 : ((s1.filter (fun c => c.value == a)).take 2).Sublist s1 :=
    (List.take_sublist 2 _).trans (List.filter_sublist s1)
  have hlen2t : ((s1.filter (fun c => c.value == a)).take 2).length = 2 := by
    rw [List.length_take]
    omega
  obtain ⟨t, ht1, ht2, ht5⟩ := sublist_extend _ s1 5 hsub2 (by omega) (by omega)
  have hcnt_t : 2 ≤ (t.map (·.value)).count a := by
    have hmapsub := ht1.map (fun c : Card => c.value)
    have hcount2 : (((s1.filter (fun c => c.value == a)).take 2).map
        (·.value)).count a = 2 := by
      rw [List.count_eq_length.mpr ?_]
      · rw [List.length_map]
        exact hlen2t
      · intro v hv
        obtain ⟨c, hc, rfl⟩ := List.mem_map.mp hv
        have hcf := List.mem_filter.mp (List.mem_of_mem_take hc)
        exact (beq_iff_eq.mp hcf.2).symm
    rw [← hcount2]
    exact hmapsub.count_le a
  have hndt : t.Nodup := ht2.nodup hnd
  have hsuitt : ∀ c ∈ t, c.suit < 4 := fun c hc => hsuit c (ht2.subset hc)
  obtain ⟨hb2, hb4⟩ := bct_top_bounds t a hcnt_t
    (card_value_count_le_four t hndt hsuitt)
  have he1 : 1 ≤ (evaluate_5cards t).1 := evaluate_pair_ge_one t hb2 hb4
  have htmem : t ∈ List.sublistsLen 5 s1 := List.mem_sublistsLen.mpr ⟨ht2, ht5⟩
  have hfst := scoreGt_false_fst_le _ _ (best_from_seven_ge s1 t htmem)
  unfold scoreGt
  rw [if_pos (by omega : (best_from_seven s1).1 > (best_from_seven s2).1)]


set_option maxRecDepth 16000 in
/-- C7 witness: a concrete pair of aces beats the concrete A-K-Q-J-9 high
card. -/
theorem c7_evaluator_ordering_witness :
    scoreGt (best_from_seven [⟨14, 0⟩, ⟨14, 1⟩, ⟨5, 2⟩, ⟨7, 3⟩, ⟨9, 0⟩,
        ⟨2, 1⟩, ⟨3, 2⟩]) (best_from_seven highCardSeven) = true :=
  c7_evaluator_ordering.1
    [⟨14, 0⟩, ⟨14, 1⟩, ⟨5, 2⟩, ⟨7, 3⟩, ⟨9, 0⟩, ⟨2, 1⟩, ⟨3, 2⟩]
    highCardSeven (by decide) (by decide) (by decide) (by decide)
    ⟨14, by decide⟩ (by decide)

/-! ## The acting-phase invariant (claim C5)

`Inv` packages the structural facts that hold in every started mid-hand state
of the engine: the turn index is in range, player ids are distinct, at least
two players are still in the hand, stacks and wagers are non-negative with
busted players all-in (`perPlayerOk`), the current bet is non-negative and is
the maximum in-hand wager (`betInv`), and either the player to act is below
the bet or someone else attains it (`turnOk`).  The lemmas below prove `Inv`
preserved by `advance_stage`, `advanceTurn` and finally by every
`player_action` call. -/

def perPlayerOk (l : List Player) : Prop :=
  ∀ i ∈ List.range l.length,
    0 ≤ (l.getD i dummyPlayer).chips ∧
    0 ≤ (l.getD i dummyPlayer).current_bet ∧
    ((l.getD i dummyPlayer).chips = 0 → (l.getD i dummyPlayer).all_in = true)

def betInv (g : Game) : Prop :=
  (∀ i ∈ List.range g.players.length,
     (g.players.getD i dummyPlayer).in_hand = true →
     (g.players.getD i dummyPlayer).current_bet ≤ g.current_bet) ∧
  (∃ i ∈ List.range g.players.length,
     (g.players.getD i dummyPlayer).in_hand = true ∧
     (g.players.getD i dummyPlayer).current_bet = g.current_bet)

def turnOk (g : Game) : Prop :=
  (g.players.getD g.turn_idx dummyPlayer).current_bet < g.current_bet ∨
  (∃ i ∈ List.range g.players.length, i ≠ g.turn_idx ∧
     (g.players.getD i dummyPlayer).in_hand = true ∧
     (g.players.getD i dummyPlayer).current_bet = g.current_bet)

def Inv (g : Game) : Prop :=
  g.started = true →
  (g.turn_idx < g.players.length ∧
   (g.players.map (·.id)).Nodup ∧
   1 < (g.players.filter (·.in_hand)).length ∧
   perPlayerOk g.players ∧
   0 ≤ g.current_bet ∧
   betInv g ∧
   turnOk g)

theorem ints_nonneg_sum_zero (l : List Int) (hnn : ∀ x ∈ l, 0 ≤ x)
    (hs : l.sum ≤ 0) : ∀ x ∈ l, x = 0 := by
  induction l with
  | nil => intro x hx; exact absurd hx (List.not_mem_nil x)
  | cons y ys ih =>
    have hy := hnn y (List.mem_cons_self y ys)
    have hys : ys.sum ≤ 0 := by
      have h1 : 0 ≤ ys.sum := List.sum_nonneg (fun x hx =>
        hnn x (List.mem_cons_of_mem y hx))
      have h2 : y + ys.sum ≤ 0 := by simpa using hs
      omega
    intro x hx
    rcases List.mem_cons.mp hx with rfl | hmem
    · have h1 : 0 ≤ ys.sum := List.sum_nonneg (fun z hz =>
        hnn z (List.mem_cons_of_mem x hz))
      have h2 : x + ys.sum ≤ 0 := by simpa using hs
      omega
    · exact ih (fun z hz => hnn z (List.mem_cons_of_mem y hz)) hys x hmem

theorem getD_map_zero_bet (l : List Player) (i : Nat) :
    (l.map (fun p => { p with current_bet := 0 })).getD i dummyPlayer
      = { l.getD i dummyPlayer with current_bet := 0 } := by
  induction l generalizing i with
  | nil => cases i <;> rfl
  | cons p ps ih => cases i with
    | zero => rfl
    | succ j => simpa using ih j

theorem filter_inhand_map_zero (l : List Player) :
    ((l.map (fun p => { p with current_bet := 0 })).filter (·.in_hand)).length
      = (l.filter (·.in_hand)).length := by
  induction l with
  | nil => rfl
  | cons p ps ih =>
    by_cases hp : p.in_hand = true <;>
      simp [List.filter_cons, hp, ih]

theorem map_id_map_zero (l : List Player) :
    ((l.map (fun p => { p with current_bet := 0 })).map (·.id)) = l.map (·.id) := by
  rw [List.map_map]
  rfl

theorem getD_mem (l : List Player) (i : Nat) (hi : i < l.length) :
    l.getD i dummyPlayer ∈ l := by
  induction l generalizing i with
  | nil => simp at hi
  | cons p ps ih => cases i with
    | zero => exact List.mem_cons_self p ps
    | succ j => exact List.mem_cons_of_mem p (ih j (by simpa using hi))

theorem flush_spec (g : Game) :
    (g.flush_current_bets_to_pot).players.length = g.players.length ∧
    (g.flush_current_bets_to_pot).started = g.started ∧
    (g.flush_current_bets_to_pot).stage = g.stage ∧
    (g.flush_current_bets_to_pot).turn_idx = g.turn_idx ∧
    (g.flush_current_bets_to_pot).dealer_idx = g.dealer_idx ∧
    (g.flush_current_bets_to_pot).bb = g.bb ∧
    (g.flush_current_bets_to_pot).current_bet = g.current_bet ∧
    ((g.flush_current_bets_to_pot).players.map (·.id)) = g.players.map (·.id) ∧
    ((g.flush_current_bets_to_pot).players.filter (·.in_hand)).length
      = (g.players.filter (·.in_hand)).length ∧
    (∀ i, ((g.flush_current_bets_to_pot).players.getD i dummyPlayer).chips
        = (g.players.getD i dummyPlayer).chips ∧
      ((g.flush_current_bets_to_pot).players.getD i dummyPlayer).all_in
        = (g.players.getD i dummyPlayer).all_in ∧
      ((g.flush_current_bets_to_pot).players.getD i dummyPlayer).in_hand
        = (g.players.getD i dummyPlayer).in_hand) ∧
    ((∀ x ∈ g.players.map (·.current_bet), 0 ≤ x) →
      ∀ i, ((g.flush_current_bets_to_pot).players.getD i dummyPlayer).current_bet
        = 0) := by
  unfold Game.flush_current_bets_to_pot
  dsimp only
  split_ifs with hpos
  · refine ⟨by simp, rfl, rfl, rfl, rfl, rfl, rfl, map_id_map_zero g.players,
      filter_inhand_map_zero g.players, ?_, ?_⟩
    · intro i
      rw [getD_map_zero_bet]
      exact ⟨rfl, rfl, rfl⟩
    · intro _ i
      rw [getD_map_zero_bet]
  · refine ⟨rfl, rfl, rfl, rfl, rfl, rfl, rfl, rfl, rfl, fun i => ⟨rfl, rfl, rfl⟩, ?_⟩
    intro hnn i
    have hall := ints_nonneg_sum_zero _ hnn (by omega)
    by_cases hi : i < g.players.length
    · exact hall _ (List.mem_map.mpr ⟨g.players.getD i dummyPlayer,
        getD_mem _ _ hi, rfl⟩)
    · rw [List.getD_eq_default _ _ (Nat.le_of_not_lt hi)]
      rfl

theorem next_active_some (g : Game) (start idx : Nat)
    (h : g.next_active_idx start = some idx) :
    idx < g.players.length ∧
    (g.players.getD idx dummyPlayer).in_hand = true ∧
    (g.players.getD idx dummyPlayer).all_in = false ∧
    (g.players.getD idx dummyPlayer).current_bet < g.current_bet := by
  unfold Game.next_active_idx at h
  obtain ⟨j, hj, hbody⟩ := List.exists_of_findSome?_eq_some h
  dsimp only at hbody
  split_ifs at hbody with hpred
  rcases Option.some.inj hbody with rfl
  have hn : 0 < g.players.length :=
    lt_of_le_of_lt (Nat.zero_le j) (List.mem_range.mp hj)
  refine ⟨Nat.mod_lt _ hn, ?_⟩
  rw [Bool.and_eq_true, Bool.and_eq_true] at hpred
  refine ⟨hpred.1.1, ?_, by simpa using hpred.2⟩
  have := hpred.1.2
  simp only [Bool.not_eq_true'] at this
  exact this

theorem runout_spec (g : Game) :
    (g.runout).players = g.players ∧ (g.runout).started = g.started ∧
    (g.runout).turn_idx = g.turn_idx ∧
    (g.runout).current_bet = g.current_bet := by
  unfold Game.runout dealN
  by_cases h1 : (g.stage == "preflop") = true <;>
    by_cases h2 : (g.stage == "flop") = true <;>
      by_cases h3 : (g.stage == "turn") = true <;>
        by_cases h4 : (g.stage == "river") = true <;>
          simp [h1, h2, h3, h4]

theorem two_inhand_indices (l : List Player)
    (h : 1 < (l.filter (·.in_hand)).length) :
    ∃ i j, i < l.length ∧ j < l.length ∧ i ≠ j ∧
      (l.getD i dummyPlayer).in_hand = true ∧
      (l.getD j dummyPlayer).in_hand = true := by
  induction l with
  | nil => simp at h
  | cons p ps ih =>
    by_cases hp : p.in_hand = true
    · have hps : 0 < (ps.filter (·.in_hand)).length := by
        rw [List.filter_cons, if_pos (by simpa using hp)] at h
        simpa using Nat.lt_of_succ_lt_succ h
      obtain ⟨q, hq⟩ := List.exists_mem_of_length_pos hps
      obtain ⟨j, hj, hjq⟩ := List.getElem_of_mem (List.mem_of_mem_filter hq)
      refine ⟨0, j + 1, Nat.succ_pos _, by simpa using hj, Nat.zero_ne_add_one j, hp, ?_⟩
      have : (ps.getD j dummyPlayer) = q := by
        rw [List.getD_eq_getElem ps dummyPlayer hj]
        exact hjq
      simp only [List.getD_cons_succ, this]
      exact (List.mem_filter.mp hq).2
    · rw [List.filter_cons, if_neg (by simpa using hp)] at h
      obtain ⟨i, j, hi, hj, hij, h1, h2⟩ := ih h
      exact ⟨i + 1, j + 1, by simpa using hi, by simpa using hj,
        fun e => hij (Nat.succ_injective e), by simpa using h1, by simpa using h2⟩

theorem one_inhand_index (l : List Player)
    (h : 0 < (l.filter (·.in_hand)).length) :
    ∃ i, i < l.length ∧ (l.getD i dummyPlayer).in_hand = true := by
  obtain ⟨q, hq⟩ := List.exists_mem_of_length_pos h
  obtain ⟨j, hj, hjq⟩ := List.getElem_of_mem (List.mem_of_mem_filter hq)
  refine ⟨j, hj, ?_⟩
  have : (l.getD j dummyPlayer) = q := by
    rw [List.getD_eq_getElem l dummyPlayer hj]
    exact hjq
  rw [this]
  exact (List.mem_filter.mp hq).2

theorem perPlayer_nonneg_wagers (l : List Player) (hpp : perPlayerOk l) :
    ∀ x ∈ l.map (·.current_bet), 0 ≤ x := by
  intro x hx
  obtain ⟨p, hp, rfl⟩ := List.mem_map.mp hx
  obtain ⟨j, hj, hjp⟩ := List.getElem_of_mem hp
  have := (hpp j (List.mem_range.mpr hj)).2.1
  rwa [List.getD_eq_getElem l dummyPlayer hj, hjp] at this

theorem Inv_of_fields (g g' : Game)
    (hp : g'.players = g.players) (hs : g'.started = g.started)
    (ht : g'.turn_idx = g.turn_idx) (hb : g'.current_bet = g.current_bet)
    (h : Inv g) : Inv g' := by
  unfold Inv betInv turnOk perPlayerOk at *
  rw [hp, hs, ht, hb]
  exact h

theorem afterDeal_Inv (g : Game)
    (hti : g.turn_idx < g.players.length)
    (hnodup : (g.players.map (·.id)).Nodup)
    (hfil : 1 < (g.players.filter (·.in_hand)).length)
    (hpp : perPlayerOk g.players)
    (hwz : ∀ i, (g.players.getD i dummyPlayer).current_bet = 0) :
    Inv (g.afterDeal) := by
  have hbase : Inv ({ g with current_bet := 0, last_raiser_idx := (-1),
                             last_raise_amount := g.bb }) := by
    unfold Inv betInv turnOk
    dsimp only
    intro hstarted
    refine ⟨hti, hnodup, hfil, hpp, le_refl 0, ⟨?_, ?_⟩, ?_⟩
    · intro i _ _
      rw [hwz i]
    · obtain ⟨i, hi, hin⟩ := one_inhand_index g.players (by omega)
      exact ⟨i, List.mem_range.mpr hi, hin, hwz i⟩
    · right
      obtain ⟨i, j, hi, hj, hij, h1, h2⟩ := two_inhand_indices g.players hfil
      by_cases hit : i = g.turn_idx
      · exact ⟨j, List.mem_range.mpr hj, by omega, h2, hwz j⟩
      · exact ⟨i, List.mem_range.mpr hi, hit, h1, hwz i⟩
  unfold Game.afterDeal
  dsimp only
  split
  · obtain ⟨hp, hs, ht, hb⟩ := runout_spec
      ({ g with current_bet := 0, last_raiser_idx := -1, last_raise_amount := g.bb })
    exact Inv_of_fields _ _ hp hs ht hb hbase
  · rename_i nxt hna
    obtain ⟨hlt, hin, hai, hwlt⟩ := next_active_some _ _ _ hna
    dsimp only at hlt hin hai hwlt
    unfold Inv betInv turnOk
    dsimp only
    intro hstarted
    refine ⟨hlt, hnodup, hfil, hpp, le_refl 0, ⟨?_, ?_⟩, ?_⟩
    · intro i _ _
      rw [hwz i]
    · obtain ⟨i, hi, hin2⟩ := one_inhand_index g.players (by omega)
      exact ⟨i, List.mem_range.mpr hi, hin2, hwz i⟩
    · exact Or.inl hwlt

theorem advance_stage_Inv (g : Game)
    (hti : g.turn_idx < g.players.length)
    (hnodup : (g.players.map (·.id)).Nodup)
    (hfil : 1 < (g.players.filter (·.in_hand)).length)
    (hpp : perPlayerOk g.players) :
    Inv (g.advance_stage) := by
  obtain ⟨hl, hs, hstg, ht, hd, hbbf, hcb, hid, hfl, hkeep, hwz0⟩ := flush_spec g
  have hwz := hwz0 (perPlayer_nonneg_wagers g.players hpp)
  have hpp2 : perPlayerOk (g.flush_current_bets_to_pot).players := by
    intro i hi
    rw [List.mem_range, hl] at hi
    obtain ⟨hc, ha, _⟩ := hkeep i
    rw [hc, ha, hwz i]
    obtain ⟨h1, _, h3⟩ := hpp i (List.mem_range.mpr hi)
    exact ⟨h1, le_refl 0, h3⟩
  simp only [Game.advance_stage]
  split_ifs with h1 h2 h3 h4
  · refine afterDeal_Inv _ ?_ ?_ ?_ ?_ ?_ <;> dsimp only [dealN]
    · rw [hl, ht]; exact hti
    · rw [hid]; exact hnodup
    · rw [hfl]; exact hfil
    · exact hpp2
    · exact hwz
  · refine afterDeal_Inv _ ?_ ?_ ?_ ?_ ?_ <;> dsimp only [dealN]
    · rw [hl, ht]; exact hti
    · rw [hid]; exact hnodup
    · rw [hfl]; exact hfil
    · exact hpp2
    · exact hwz
  · refine afterDeal_Inv _ ?_ ?_ ?_ ?_ ?_ <;> dsimp only [dealN]
    · rw [hl, ht]; exact hti
    · rw [hid]; exact hnodup
    · rw [hfl]; exact hfil
    · exact hpp2
    · exact hwz
  · refine afterDeal_Inv _ ?_ ?_ ?_ ?_ ?_ <;> dsimp only [dealN]
    · rw [hl, ht]; exact hti
    · rw [hid]; exact hnodup
    · rw [hfl]; exact hfil
    · exact hpp2
    · exact hwz
  all_goals
    unfold Inv
    dsimp only
    intro hcon
    exact Bool.noConfusion hcon

theorem advanceTurn_Inv (g : Game)
    (hti : g.turn_idx < g.players.length)
    (hnodup : (g.players.map (·.id)).Nodup)
    (hfil : 1 < (g.players.filter (·.in_hand)).length)
    (hpp : perPlayerOk g.players)
    (hb0 : 0 ≤ g.current_bet)
    (hbet : betInv g) :
    Inv (g.advanceTurn) := by
  unfold Game.advanceTurn
  split
  · exact advance_stage_Inv g hti hnodup hfil hpp
  · rename_i nxt hna
    obtain ⟨hlt, hin, hai, hwlt⟩ := next_active_some _ _ _ hna
    obtain ⟨hup, hwit⟩ := hbet
    unfold Inv betInv turnOk
    dsimp only
    intro _
    exact ⟨hlt, hnodup, hfil, hpp, hb0, ⟨hup, hwit⟩, Or.inl hwlt⟩

theorem id_mem_of_lt (l : List Player) (i : Nat) (hi : i < l.length) :
    (l.getD i dummyPlayer).id ∈ l.map (·.id) :=
  List.mem_map.mpr ⟨l.getD i dummyPlayer, getD_mem l i hi, rfl⟩

theorem nodup_findIdx_eq (l : List Player) (x : String)
    (hn : (l.map (·.id)).Nodup) (i : Nat) (hi : i < l.length)
    (hid : (l.getD i dummyPlayer).id = x) :
    l.findIdx (fun p => p.id == x) = i := by
  induction l generalizing i with
  | nil => simp at hi
  | cons a as ih =>
    rw [List.map_cons, List.nodup_cons] at hn
    cases i with
    | zero =>
      have ha : (a.id == x) = true := by
        simpa using hid
      rw [List.findIdx_cons, ha]
      rfl
    | succ j =>
      have hj : j < as.length := by simpa using hi
      have hid2 : (as.getD j dummyPlayer).id = x := hid
      have hne : (a.id == x) = false := by
        rw [beq_eq_false_iff_ne]
        intro he
        exact hn.1 (by rw [he, ← hid2]; exact id_mem_of_lt as j hj)
      rw [List.findIdx_cons, hne]
      simp [ih hn.2 j hj hid2]

theorem filter_inhand_modifyIdx (l : List Player) (i : Nat) (f : Player → Player)
    (hf : ∀ p, (f p).in_hand = p.in_hand) :
    ((modifyIdx l i f).filter (·.in_hand)).length
      = (l.filter (·.in_hand)).length := by
  induction l generalizing i with
  | nil => rfl
  | cons a as ih =>
    cases i with
    | zero =>
      simp only [modifyIdx, List.filter_cons, hf a]
      split <;> simp
    | succ j =>
      simp only [modifyIdx, List.filter_cons]
      split <;> simp [ih j]

theorem filter_length_modify_false (l : List Player) (i : Nat) (hi : i < l.length)
    (hin : (l.getD i dummyPlayer).in_hand = true) :
    ((modifyIdx l i (fun q => { q with in_hand := false })).filter
        (·.in_hand)).length + 1
      = (l.filter (·.in_hand)).length := by
  induction l generalizing i with
  | nil => simp at hi
  | cons a as ih =>
    cases i with
    | zero =>
      have ha : a.in_hand = true := hin
      simp [modifyIdx, List.filter_cons, ha]
    | succ j =>
      have hj : j < as.length := by simpa using hi
      simp only [modifyIdx, List.filter_cons]
      split <;> simp [← ih j hj hin]

theorem filter_map_succ_len (r : List Nat) (p : Nat → Bool) :
    ((r.map Nat.succ).filter p).length
      = (r.filter (fun i => p (i + 1))).length := by
  induction r with
  | nil => rfl
  | cons b bs ih =>
    simp only [List.map_cons, List.filter_cons, Nat.succ_eq_add_one]
    by_cases hb : p (b + 1) = true <;> simp [hb, ih]

theorem range_filter_getD (l : List Player) :
    ((List.range l.length).filter
        (fun i => (l.getD i dummyPlayer).in_hand)).length
      = (l.filter (·.in_hand)).length := by
  induction l with
  | nil => rfl
  | cons a as ih =>
    rw [List.length_cons, List.range_succ_eq_map]
    simp only [List.filter_cons]
    have hstep :
        ((List.range as.length).map Nat.succ).filter
            (fun i => ((a :: as).getD i dummyPlayer).in_hand)
          = ((List.range as.length).filter
              (fun i => (as.getD i dummyPlayer).in_hand)).map Nat.succ := by
      induction List.range as.length with
      | nil => rfl
      | cons b bs ih2 =>
        simp only [List.map_cons, List.filter_cons]
        have hb : ((a :: as).getD (Nat.succ b) dummyPlayer).in_hand
            = (as.getD b dummyPlayer).in_hand := rfl
        rw [hb]
        by_cases hbb : (as.getD b dummyPlayer).in_hand = true
        · rw [if_pos hbb, if_pos hbb, List.map_cons, ih2]
        · rw [if_neg hbb, if_neg hbb, ih2]
    rw [hstep]
    by_cases ha : a.in_hand = true
    · rw [if_pos (show ((a :: as).getD 0 dummyPlayer).in_hand = true from ha),
          if_pos ha]
      rw [List.length_cons, List.length_cons, List.length_map, ih]
    · rw [if_neg (show ¬((a :: as).getD 0 dummyPlayer).in_hand = true from ha),
          if_neg ha]
      rw [List.length_map, ih]

theorem inplay_length (g : Game) :
    g.inplayIdx.length = (g.players.filter (·.in_hand)).length :=
  range_filter_getD g.players

theorem Inv_of_not_started (X : Game) (h : X.started = false) : Inv X := by
  unfold Inv
  intro hc
  rw [h] at hc
  exact Bool.noConfusion hc

theorem collect_started_false (G : Game)
    (h1 : (G.players.filter (·.in_hand)).length = 1) :
    (G.collect_pots_and_award).1.started = false := by
  unfold Game.collect_pots_and_award
  have hc : (G.inplayIdx.length == 1) = true := by
    rw [inplay_length, h1]
    rfl
  simp only [hc, if_pos]

theorem off_turn_witness (g : Game) (hbet : betInv g) (htok : turnOk g) :
    ∃ i ∈ List.range g.players.length, i ≠ g.turn_idx ∧
      (g.players.getD i dummyPlayer).in_hand = true ∧
      (g.players.getD i dummyPlayer).current_bet = g.current_bet := by
  rcases htok with hlt | hw
  · obtain ⟨j, hj, hjin, hjbet⟩ := hbet.2
    refine ⟨j, hj, ?_, hjin, hjbet⟩
    intro he
    rw [he] at hjbet
    rw [hjbet] at hlt
    exact lt_irrefl _ hlt
  · exact hw

theorem raise_core_Inv (g G : Game) (p : Player) (tp : Int) (f : Player → Player)
    (hpeq : g.players.getD g.turn_idx dummyPlayer = p)
    (hpin : p.in_hand = true)
    (hti : g.turn_idx < g.players.length)
    (hnodup : (g.players.map (·.id)).Nodup)
    (hfil : 1 < (g.players.filter (·.in_hand)).length)
    (hpp : perPlayerOk g.players)
    (hb0 : 0 ≤ g.current_bet)
    (hbet : betInv g) (htok : turnOk g)
    (hGp : G.players = modifyIdx g.players g.turn_idx f)
    (hGt : G.turn_idx = g.turn_idx)
    (hGb : G.current_bet = max g.current_bet (p.current_bet + tp))
    (htpnn : 0 ≤ tp)
    (htple : tp ≤ p.chips)
    (hfid : ∀ q, (f q).id = q.id)
    (hfin : ∀ q, (f q).in_hand = q.in_hand)
    (hfchips : (f p).chips = p.chips - tp)
    (hfbet : (f p).current_bet = p.current_bet + tp)
    (hfall : (f p).chips = 0 → (f p).all_in = true) :
    Inv (G.advanceTurn) := by
  have hpb : 0 ≤ p.current_bet := by
    have h3 := (hpp g.turn_idx (List.mem_range.mpr hti)).2.1
    rwa [hpeq] at h3
  have hpc : 0 ≤ p.chips := by
    have h3 := (hpp g.turn_idx (List.mem_range.mpr hti)).1
    rwa [hpeq] at h3
  apply advanceTurn_Inv
  · rw [hGt, hGp, modifyIdx_length]
    exact hti
  · rw [hGp, map_modifyIdx _ _ _ _ (hfid _)]
    exact hnodup
  · rw [hGp, filter_inhand_modifyIdx _ _ _ hfin]
    exact hfil
  · rw [hGp]
    intro i hi
    rw [List.mem_range, modifyIdx_length] at hi
    by_cases hiq : i = g.turn_idx
    · subst hiq
      rw [getD_modifyIdx_self _ _ _ hi, hpeq]
      refine ⟨?_, ?_, hfall⟩
      · rw [hfchips]; linarith
      · rw [hfbet]; linarith
    · rw [getD_modifyIdx_ne _ _ _ _ hiq]
      exact hpp i (List.mem_range.mpr hi)
  · rw [hGb]
    exact le_trans hb0 (le_max_left _ _)
  · refine ⟨?_, ?_⟩
    · intro i hi hin
      rw [hGp, List.mem_range, modifyIdx_length] at hi
      rw [hGp] at hin ⊢
      rw [hGb]
      by_cases hiq : i = g.turn_idx
      · subst hiq
        rw [getD_modifyIdx_self _ _ _ hi, hpeq, hfbet]
        exact le_max_right _ _
      · rw [getD_modifyIdx_ne _ _ _ _ hiq] at hin ⊢
        exact le_trans (hbet.1 i (List.mem_range.mpr hi) hin) (le_max_left _ _)
    · by_cases hmax : g.current_bet ≤ p.current_bet + tp
      · refine ⟨g.turn_idx, ?_, ?_, ?_⟩
        · rw [hGp, modifyIdx_length]
          exact List.mem_range.mpr hti
        · rw [hGp, getD_modifyIdx_self _ _ _ hti, hpeq, hfin]
          exact hpin
        · rw [hGp, getD_modifyIdx_self _ _ _ hti, hpeq, hfbet, hGb,
              max_eq_right hmax]
      · push_neg at hmax
        obtain ⟨j, hj, hjne, hjin, hjbet⟩ := off_turn_witness g hbet htok
        refine ⟨j, ?_, ?_, ?_⟩
        · rw [hGp, modifyIdx_length]
          exact hj
        · rw [hGp, getD_modifyIdx_ne _ _ _ _ hjne]
          exact hjin
        · rw [hGp, getD_modifyIdx_ne _ _ _ _ hjne, hGb,
              max_eq_left (le_of_lt hmax)]
          exact hjbet

theorem raiseApply_Inv (g : Game) (p : Player) (amt : Int)
    (hpeq : g.players.getD g.turn_idx dummyPlayer = p)
    (hpin : p.in_hand = true)
    (hamt : 0 < amt)
    (hti : g.turn_idx < g.players.length)
    (hnodup : (g.players.map (·.id)).Nodup)
    (hfil : 1 < (g.players.filter (·.in_hand)).length)
    (hpp : perPlayerOk g.players)
    (hb0 : 0 ≤ g.current_bet)
    (hbet : betInv g) (htok : turnOk g) :
    Inv ((g.raiseApply g.turn_idx amt p).advanceTurn) := by
  have hpb : 0 ≤ p.current_bet := by
    have h3 := (hpp g.turn_idx (List.mem_range.mpr hti)).2.1
    rwa [hpeq] at h3
  have hpc : 0 ≤ p.chips := by
    have h3 := (hpp g.turn_idx (List.mem_range.mpr hti)).1
    rwa [hpeq] at h3
  have hple : p.current_bet ≤ g.current_bet := by
    have h3 := hbet.1 g.turn_idx (List.mem_range.mpr hti)
    rw [hpeq] at h3
    exact h3 hpin
  unfold Game.raiseApply
  dsimp only
  split_ifs with hcap hgt hgt2
  · refine raise_core_Inv g _ p p.chips _ hpeq hpin hti hnodup hfil hpp hb0
      hbet htok rfl rfl ?_ hpc (le_refl _) (fun q => rfl) (fun q => rfl) rfl rfl ?_
    · dsimp only
      rw [getD_modifyIdx_self _ _ _ hti, hpeq] at hgt ⊢
      dsimp only at hgt ⊢
      exact (max_eq_right (le_of_lt hgt)).symm
    · intro _
      simp [hcap]
  · refine raise_core_Inv g _ p p.chips _ hpeq hpin hti hnodup hfil hpp hb0
      hbet htok rfl rfl ?_ hpc (le_refl _) (fun q => rfl) (fun q => rfl) rfl rfl ?_
    · dsimp only
      rw [getD_modifyIdx_self _ _ _ hti, hpeq] at hgt
      dsimp only at hgt
      push_neg at hgt
      exact (max_eq_left hgt).symm
    · intro _
      simp [hcap]
  · have h5 : g.current_bet - p.current_bet + amt < p.chips :=
      lt_of_not_ge (by simpa using hcap)
    refine raise_core_Inv g _ p (g.current_bet - p.current_bet + amt) _
      hpeq hpin hti hnodup hfil hpp hb0 hbet htok rfl rfl ?_
      (by linarith) (le_of_lt h5) (fun q => rfl) (fun q => rfl) rfl rfl ?_
    · dsimp only
      rw [getD_modifyIdx_self _ _ _ hti, hpeq] at hgt2 ⊢
      dsimp only at hgt2 ⊢
      exact (max_eq_right (le_of_lt hgt2)).symm
    · intro h0
      dsimp only at h0
      exfalso
      linarith
  · have h5 : g.current_bet - p.current_bet + amt < p.chips :=
      lt_of_not_ge (by simpa using hcap)
    refine raise_core_Inv g _ p (g.current_bet - p.current_bet + amt) _
      hpeq hpin hti hnodup hfil hpp hb0 hbet htok rfl rfl ?_
      (by linarith) (le_of_lt h5) (fun q => rfl) (fun q => rfl) rfl rfl ?_
    · dsimp only
      rw [getD_modifyIdx_self _ _ _ hti, hpeq] at hgt2
      dsimp only at hgt2
      push_neg at hgt2
      exact (max_eq_left hgt2).symm
    · intro h0
      dsimp only at h0
      exfalso
      linarith

theorem player_action_Inv (g : Game) (pid act : String) (amt : Int)
    (hInv : Inv g) : Inv ((g.player_action pid act amt).1) := by
  unfold Game.player_action
  cases hf : g.find_player pid with
  | none => exact hInv
  | some p =>
    simp only [hf]
    by_cases c1 : (!p.in_hand) = true
    · simp only [if_pos c1]; exact hInv
    · simp only [if_neg c1]
      by_cases c2 : (!g.started) = true
      · simp only [if_pos c2]; exact hInv
      · simp only [if_neg c2]
        by_cases c3 : (g.players.getD g.turn_idx dummyPlayer).id ≠ pid
        · simp only [if_pos c3]; exact hInv
        · simp only [if_neg c3]
          by_cases c4 : p.all_in = true
          · simp only [if_pos c4]; exact hInv
          · simp only [if_neg c4]
            have hst : g.started = true := by
              cases hb : g.started with
              | false => rw [hb] at c2; exact absurd rfl c2
              | true => rfl
            obtain ⟨hti, hnodup, hfil, hpp, hb0, hbet, htok⟩ := hInv hst
            have hpin : p.in_hand = true := by simpa using c1
            have hturn : (g.players.getD g.turn_idx dummyPlayer).id = pid :=
              not_ne_iff.mp c3
            have hfind : List.findIdx (fun q => q.id == pid) g.players
                = g.turn_idx :=
              nodup_findIdx_eq g.players pid hnodup g.turn_idx hti hturn
            have hpidx : g.pIdx pid = g.turn_idx := hfind
            have hpeq : g.players.getD g.turn_idx dummyPlayer = p := by
              have h2 := find?_getD_findIdx g.players (fun q => q.id == pid) p hf
              rwa [hfind] at h2
            by_cases c5 : (lowerStr act == "fold") = true
            · simp only [if_pos c5]
              rw [hpidx]
              split
              · rename_i hend
                apply Inv_of_not_started
                apply collect_started_false
                obtain ⟨_, _, _, _, _, _, _, _, hfl1, _, _⟩ :=
                  flush_spec { g with players := modifyIdx g.players g.turn_idx (fun q => { q with in_hand := false }) }
                rw [hfl1]
                dsimp only
                unfold Game.all_but_one_folded at hend
                dsimp only at hend
                have hc2 := of_decide_eq_true hend
                have hmod := filter_length_modify_false g.players g.turn_idx hti
                  (by rw [hpeq]; exact hpin)
                omega
              · rename_i hend
                unfold Game.all_but_one_folded at hend
                dsimp only at hend
                have hgt1 : 1 < ((modifyIdx g.players g.turn_idx
                    (fun q => { q with in_hand := false })).filter
                      (·.in_hand)).length := by
                  rcases Nat.lt_or_ge 1 ((modifyIdx g.players g.turn_idx
                    (fun q => { q with in_hand := false })).filter
                      (·.in_hand)).length with h | h
                  · exact h
                  · exact absurd (decide_eq_true (by omega)) hend
                apply advanceTurn_Inv
                · dsimp only
                  rw [modifyIdx_length]
                  exact hti
                · dsimp only
                  rw [map_modifyIdx _ _ _ _ rfl]
                  exact hnodup
                · exact hgt1
                · dsimp only
                  intro i hi
                  rw [List.mem_range, modifyIdx_length] at hi
                  by_cases hiq : i = g.turn_idx
                  · subst hiq
                    rw [getD_modifyIdx_self _ _ _ hi]
                    exact hpp g.turn_idx (List.mem_range.mpr hi)
                  · rw [getD_modifyIdx_ne _ _ _ _ hiq]
                    exact hpp i (List.mem_range.mpr hi)
                · exact hb0
                · refine ⟨?_, ?_⟩
                  · dsimp only
                    intro i hi hin
                    rw [List.mem_range, modifyIdx_length] at hi
                    by_cases hiq : i = g.turn_idx
                    · subst hiq
                      rw [getD_modifyIdx_self _ _ _ hi] at hin
                      exact absurd hin (by simp)
                    · rw [getD_modifyIdx_ne _ _ _ _ hiq] at hin ⊢
                      exact hbet.1 i (List.mem_range.mpr hi) hin
                  · dsimp only
                    obtain ⟨j, hj, hjne, hjin, hjbet⟩ :=
                      off_turn_witness g hbet htok
                    refine ⟨j, ?_, ?_, ?_⟩
                    · rw [modifyIdx_length]
                      exact hj
                    · rw [getD_modifyIdx_ne _ _ _ _ hjne]
                      exact hjin
                    · rw [getD_modifyIdx_ne _ _ _ _ hjne]
                      exact hjbet
            · simp only [if_neg c5]
              by_cases c6 : (lowerStr act == "check") = true
              · simp only [if_pos c6]
                by_cases c6a : g.current_bet - p.current_bet > 0
                · simp only [if_pos c6a]
                  exact hInv
                · simp only [if_neg c6a]
                  exact advanceTurn_Inv g hti hnodup hfil hpp hb0 hbet
              · simp only [if_neg c6]
                by_cases c7 : (lowerStr act == "call") = true
                · simp only [if_pos c7]
                  by_cases c7a : g.current_bet - p.current_bet ≤ 0
                  · simp only [if_pos c7a]
                    exact hInv
                  · simp only [if_neg c7a]
                    rw [hpidx]
                    have hcall : 0 < g.current_bet - p.current_bet :=
                      lt_of_not_ge c7a
                    have hpb : 0 ≤ p.current_bet := by
                      have h3 := (hpp g.turn_idx (List.mem_range.mpr hti)).2.1
                      rwa [hpeq] at h3
                    have hpc : 0 ≤ p.chips := by
                      have h3 := (hpp g.turn_idx (List.mem_range.mpr hti)).1
                      rwa [hpeq] at h3
                    have hputnn :
                        0 ≤ min (g.current_bet - p.current_bet) p.chips :=
                      le_min (le_of_lt hcall) hpc
                    refine raise_core_Inv g _ p
                      (min (g.current_bet - p.current_bet) p.chips) _
                      hpeq hpin hti hnodup hfil hpp hb0 hbet htok rfl rfl ?_
                      hputnn (min_le_right _ _) ?_ ?_ ?_ ?_ ?_
                    · dsimp only
                      have hle : p.current_bet
                          + min (g.current_bet - p.current_bet) p.chips
                          ≤ g.current_bet := by
                        have := min_le_left (g.current_bet - p.current_bet)
                          p.chips
                        linarith
                      exact (max_eq_left hle).symm
                    · intro q
                      dsimp only
                      split <;> rfl
                    · intro q
                      dsimp only
                      split <;> rfl
                    · dsimp only
                      split <;> rfl
                    · dsimp only
                      split <;> rfl
                    · dsimp only
                      split
                      · intro _
                        rfl
                      · rename_i hz
                        intro h0
                        dsimp only at h0
                        exact absurd (by rw [h0]; decide) hz
                · simp only [if_neg c7]
                  by_cases c8 : (lowerStr act == "raise") = true
                  · simp only [if_pos c8]
                    by_cases c8a : amt ≤ 0
                    · simp only [if_pos c8a]
                      exact hInv
                    · simp only [if_neg c8a]
                      by_cases c8b : amt < (if g.last_raiser_idx ≠ -1 then
                          g.last_raise_amount else g.bb) ∧
                          g.current_bet - p.current_bet + amt < p.chips
                      · simp only [if_pos c8b]
                        exact hInv
                      · simp only [if_neg c8b]
                        rw [hpidx]
                        exact raiseApply_Inv g p amt hpeq hpin
                          (lt_of_not_ge c8a) hti hnodup hfil hpp hb0 hbet htok
                  · simp only [if_neg c8]
                    exact hInv

/-- C5 (amended): `start_hand` does not in general establish
`current bet = max(currentRoundWager) over inHand players` (the short-big-blind
counterexample shows the bet can land strictly below an in-hand wager), but the
equality is an inductive invariant of the acting phase.  `Inv` packages the
engine's structural state facts (turn index in range, unique ids, at least two
players in hand, non-negative stacks and wagers, busted implies all-in) with
the bet law `betInv` and the turn fact `turnOk`; in any started state
satisfying `Inv`, every in-hand wager is at most the table's current bet and
some in-hand player attains it exactly — `current bet` is the in-hand wager
maximum — and every `player_action` call, for any caller id, action string and
amount, accepted or rejected, yields a state satisfying `Inv` again. -/
theorem c5_current_bet_is_max_wager_amended (g : Game) (pid act : String)
    (amt : Int) (hInv : Inv g) (hst : g.started = true) :
    ((∀ i ∈ List.range g.players.length,
        (g.players.getD i dummyPlayer).in_hand = true →
        (g.players.getD i dummyPlayer).current_bet ≤ g.current_bet) ∧
     (∃ i ∈ List.range g.players.length,
        (g.players.getD i dummyPlayer).in_hand = true ∧
        (g.players.getD i dummyPlayer).current_bet = g.current_bet)) ∧
    Inv ((g.player_action pid act amt).1) := by
  obtain ⟨_, _, _, _, _, hbet, _⟩ := hInv hst
  exact ⟨hbet, player_action_Inv g pid act amt hInv⟩

/-- C5 witness: the preflop state `raiseState` satisfies `Inv` and is started,
so the amended theorem applies there to a call by seat 0: the current bet 20
is the in-hand wager maximum and the call leads back into `Inv`. -/
theorem c5_current_bet_is_max_wager_amended_witness :
    ((∀ i ∈ List.range raiseState.players.length,
        (raiseState.players.getD i dummyPlayer).in_hand = true →
        (raiseState.players.getD i dummyPlayer).current_bet
          ≤ raiseState.current_bet) ∧
     (∃ i ∈ List.range raiseState.players.length,
        (raiseState.players.getD i dummyPlayer).in_hand = true ∧
        (raiseState.players.getD i dummyPlayer).current_bet
          = raiseState.current_bet)) ∧
    Inv ((raiseState.player_action "p0" "call" 0).1) :=
  c5_current_bet_is_max_wager_amended raiseState "p0" "call" 0
    (by unfold Inv betInv turnOk perPlayerOk; decide) rfl

end Pokersp
